import Mathlib

/-!
Verification of the schema symbol-resolution and inclusion-graph engine of
`protodot` (`main.go`), as a shallow embedding in Lean.

Modelling conventions:
* Go `map`s are modelled as association lists (`List (key × value)`) with
  update-in-place-or-append insertion; Go's unspecified map iteration order is
  fixed to insertion order.  All properties stated below are independent of
  this ordering choice except where a theorem explicitly says otherwise.
* Go `panic` (and the repository's fatal `assert`, which lives outside the
  embedded file) is modelled as `Except.error`; non-fatal logging helpers
  (`debug`, `trace`, `alert`, `status`, `ignoring`, `unhandled`) are no-ops.
* Rendering-only data (the `raw` template payload, parser `Position`s, the
  `comment` field) is produced by external collaborators and never read by the
  embedded logic; those fields are elided from `tinfo`.
* The parsed declaration tree supplied by the external parser is modelled by
  `ProtoFile`; the file-resolution collaborator (`Find`) by an association
  list `FileSys`.
-/

set_option autoImplicit false

namespace Protodot

universe u v

variable {α : Type u} {β : Type v}

/-- First-match association-list lookup (Go map read). -/
def lookupA [DecidableEq α] (k : α) : List (α × β) → Option β
  | [] => none
  | p :: t => if p.1 = k then some p.2 else lookupA k t

/-- Association-list insertion: overwrite in place if the key is present,
otherwise append (Go map write). -/
def alInsert [DecidableEq α] (k : α) (v : β) : List (α × β) → List (α × β)
  | [] => [(k, v)]
  | p :: t => if p.1 = k then (k, v) :: t else p :: alInsert k v t

/-- The `Kind` enumeration from the source. -/
inductive Kind where
  | Unknown
  | Simple
  | Enum
  | Message
  | Missing
  deriving DecidableEq, Repr, Inhabited

/-- Per-file record (`pkgInfo` in the source).  The `proto3` flag is carried
for fidelity; nothing below reads it. -/
structure pkgInfo where
  packageName : String := ""
  fileName : String := ""
  dependencies : List String := []
  weak : Bool := false
  missing : Bool := false
  proto3 : Bool := false
  deriving DecidableEq, Repr, Inhabited

/-- RPC payload carried in `tinfo.object` for `rpc` entries
(`*proto.RPC` fields read by the engine). -/
structure RpcDecl where
  name : String := ""
  requestType : String := ""
  returnsType : String := ""
  deriving DecidableEq, Repr, Inhabited

/-- Entity record (`tinfo` in the source).  `raw`, `filename` and `comment`
are rendering/diagnostic payloads owned by external collaborators and are
elided; `object` is kept only for `rpc` entries, where the engine reads it. -/
structure tinfo where
  fullname : String := ""
  unique : String := ""
  name : String := ""
  typename : String := ""
  protopack : String := ""
  parent : String := ""
  rpcObject : Option RpcDecl := none
  deriving DecidableEq, Repr, Inhabited

/-- The shared run state (`pbstate` in the source).  `writer`, `outputFile`,
`selection`, `rootDir` and `incMapping` belong to the rendering/CLI adapters
and are elided. -/
structure pbstate where
  knownFiles : List (String × pkgInfo) := []
  types237 : List (String × tinfo) := []
  translate : List (String × List String) := []
  inclusions : List (String × List (String × Nat)) := []
  resolutions : List (String × List (String × String)) := []
  diveDepth : Nat := 0
  counter : Nat := 100
  knownNames : List (String × String) := []
  dive : Bool := true
  proto : String := ""
  pkg : String := ""
  deriving DecidableEq, Repr, Inhabited

/-- `NewPbs`: the counter starts at 100 and diving is enabled. -/
def NewPbs : pbstate := {}

/-- Modelled from the spec: the two configuration toggles consumed directly by
the core ("allow missing imports" and "show missing types"); the `options`
lookup itself lives outside the embedded file. -/
structure Config where
  allowMissingImports : Bool := false
  showMissingTypes : Bool := false
  deriving DecidableEq, Repr, Inhabited

/-- Modelled from the spec: `isSimpleType` (outside the embedded file) tests
membership in the fixed enumerable set of built-in scalar type names. -/
def isSimpleType (s : String) : Bool :=
  s ∈ ["double", "float", "int32", "int64", "uint32", "uint64", "sint32",
       "sint64", "fixed32", "fixed64", "sfixed32", "sfixed64", "bool",
       "string", "bytes"]

/-- Character-level model of Go `strings.HasPrefix(s, p)`. -/
def strStartsWith (s p : String) : Bool := p.data.isPrefixOf s.data

/-- Character-level model of Go `strings.HasSuffix(s, p)`. -/
def strEndsWith (s p : String) : Bool := p.data.isSuffixOf s.data

/-- Character-level model of the Go slice `s[:n]` (the embedded inputs are
ASCII, so byte and character counts agree). -/
def strTake (s : String) (n : Nat) : String := ⟨s.data.take n⟩

/-- Character-level model of the Go slice `s[:len(s)-n]`. -/
def strDropRight (s : String) (n : Nat) : String := ⟨s.data.take (s.data.length - n)⟩

/-- Helper for `splitOnChar`. -/
def splitOnCharAux (c : Char) : List Char → List Char → List String
  | [], acc => [⟨acc.reverse⟩]
  | x :: xs, acc =>
      if x = c then (⟨acc.reverse⟩ : String) :: splitOnCharAux c xs []
      else splitOnCharAux c xs (x :: acc)

/-- Go `strings.Split(s, sep)` for a single-character separator. -/
def splitOnChar (c : Char) (s : String) : List String := splitOnCharAux c s.data []

/-- Helper for `containsSub`. -/
def containsAux (pat : List Char) : List Char → Bool
  | [] => pat.isEmpty
  | x :: xs => pat.isPrefixOf (x :: xs) || containsAux pat xs

/-- Go `strings.Index(s, pat) >= 0`: `pat` occurs contiguously in `s`. -/
def containsSub (s pat : String) : Bool := containsAux pat.data s.data


/-- `getUniqueName`: if the short name is itself registered as an alias of
exactly this full name, reuse it; otherwise allocate `Ja_<counter>` and
advance the counter. -/
def getUniqueName (pbs : pbstate) (short full : String) : String × pbstate :=
  match lookupA short pbs.knownNames with
  | some got =>
      if got = full then (short, pbs)
      else
        let name := "Ja_" ++ toString pbs.counter
        (name, { pbs with counter := pbs.counter + 1,
                          knownNames := alInsert name full pbs.knownNames })
  | none =>
      let name := "Ja_" ++ toString pbs.counter
      (name, { pbs with counter := pbs.counter + 1,
                        knownNames := alInsert name full pbs.knownNames })

/-- `addResolution`: memoize `(scope, shorttype) ↦ fulltype`. -/
def addResolution (pbs : pbstate) (scope shorttype fulltype : String) : pbstate :=
  let inner := (lookupA scope pbs.resolutions).getD []
  { pbs with resolutions := alInsert scope (alInsert shorttype fulltype inner) pbs.resolutions }

/-- `getResolution`: look up the memo table, falling back to a scan of all
`missing` entries by short name. -/
def getResolution (pbs : pbstate) (scope shorttype : String) : Option tinfo :=
  match lookupA shorttype ((lookupA scope pbs.resolutions).getD []) with
  | some fulltype =>
      match lookupA fulltype pbs.types237 with
      | some info => some info
      | none =>
          (pbs.types237.find? fun p =>
            p.2.typename = "missing" && p.2.name = shorttype).map Prod.snd
  | none =>
      (pbs.types237.find? fun p =>
        p.2.typename = "missing" && p.2.name = shorttype).map Prod.snd

/-- Edge key construction shared by `recordInclusion`/`getInclusion`:
`from` + ":" + field (the field part omitted when empty). -/
def edgeKey (frm field : String) : String :=
  if field.length > 0 then frm ++ ":" ++ field else frm

/-- `recordInclusion`: bump the multiplicity of `(owner:field) → to`. -/
def recordInclusion (pbs : pbstate) (frm field tgt : String) : pbstate :=
  let key := edgeKey frm field
  let inner := (lookupA key pbs.inclusions).getD []
  let inner := alInsert tgt ((lookupA tgt inner).getD 0 + 1) inner
  { pbs with inclusions := alInsert key inner pbs.inclusions }

/-- `getInclusion`: return the full edge key and its target multiset, if
recorded. -/
def getInclusion (pbs : pbstate) (frm field : String) :
    Option (String × List (String × Nat)) :=
  let key := edgeKey frm field
  (lookupA key pbs.inclusions).map fun inc => (key, inc)

/-- `recordMissingType`: memoized creation of a `missing` placeholder entity,
keyed by `missing.<owner alias>.<missing short name>`.  The rendered
`missing.node` payload is elided. -/
def recordMissingType (pbs : pbstate) (frm missingType : String) : String × pbstate :=
  let fulltype := "missing." ++ frm ++ "." ++ missingType
  match lookupA fulltype pbs.types237 with
  | none =>
      let (unique, pbs) := getUniqueName pbs missingType fulltype
      let info : tinfo :=
        { typename := "missing", fullname := fulltype, unique := unique,
          name := missingType, protopack := pbs.proto }
      (unique, { pbs with types237 := alInsert fulltype info pbs.types237 })
  | some info => (info.unique, pbs)

/-- `recordMissingInclusion`: under "show missing types", synthesize (or
reuse) the placeholder and record the edge; otherwise only log. -/
def recordMissingInclusion (cfg : Config) (pbs : pbstate)
    (frm field missingType : String) : pbstate :=
  if cfg.showMissingTypes then
    let (unique, pbs) := recordMissingType pbs frm missingType
    recordInclusion pbs frm field unique
  else pbs

/-- `saveMapping`: short-name → qualified-name index; a collision is only
logged and the new qualified name is appended. -/
def saveMapping (pbs : pbstate) (short full : String) : pbstate :=
  let names := (lookupA short pbs.translate).getD []
  { pbs with translate := alInsert short (names ++ [full]) pbs.translate }

/-- The strict-longest scan of `resolveType`'s multi-candidate branch: keep
the candidates whose namespace (qualified name minus `"." ++ loc`) is a
string prefix of the scope, returning the first longest one ("" when none
survives). -/
def pickLongest (full loc : String) (cands : List String) : String :=
  cands.foldl (fun acc one =>
    let ns := strTake one (one.length - loc.length - 1)
    if strStartsWith full ns then
      (if one.length > acc.length then one else acc)
    else acc) ""

/-- The strict-longest scan of `resolveType`'s dotted branch: keep the
registered qualified names ending in `loc` whose remaining prefix (a
trailing dot removed) is a string prefix of the scope. -/
def pickLongestDotted (full loc : String) (types : List (String × tinfo)) : String :=
  types.foldl (fun acc p =>
    let typename := p.1
    if strEndsWith typename loc then
      let pre := strTake typename (typename.length - loc.length)
      let pre := if strEndsWith pre "." then strDropRight pre 1 else pre
      if strStartsWith full pre then
        (if typename.length > acc.length then typename else acc)
      else acc
    else acc) ""

/-- `resolveType`: the §4.2 ambiguity-resolution policy.  `loc` is the raw
reference string (`local` in the source); `full` is the scope.  Unresolved
outcomes only log and leave the state unchanged.  (The Go namespace slice
`one[:len(one)-len(loc)-1]` would panic when a candidate is shorter than the
reference; `String.take` clamps instead — all candidates produced by
`saveMapping` have the form `<namespace>.<short name>`, so the two agree on
every reachable state.) -/
def resolveType (pbs : pbstate) (full loc : String) : pbstate :=
  if isSimpleType loc then pbs
  else if (getResolution pbs full loc).isSome then pbs
  else
    let cands := (lookupA loc pbs.translate).getD []
    if cands.length > 1 then
      let found := pickLongest full loc cands
      if found.length > 0 then addResolution pbs full loc found else pbs
    else
      let parts := splitOnChar '.' loc
      if parts.length > 1 then
        let found := pickLongestDotted full loc pbs.types237
        if found.length > 0 then addResolution pbs full loc found else pbs
      else
        match lookupA loc pbs.translate with
        | some [n] => addResolution pbs full loc n
        | _ => pbs

/-- A field-level element of a message body (`proto.NormalField`,
`proto.MapField`, `proto.Oneof` with its inner fields as (name, type) pairs).
Constructs the engine ignores (options, comments, reserved ranges, nested
declarations, groups, extensions) are omitted: their handlers only log. -/
inductive FieldElem where
  | normal (name ty : String)
  | mapF (name keyTy ty : String)
  | oneof (name : String) (fields : List (String × String))
  deriving DecidableEq, Repr, Inhabited

/-- A message declaration (`*proto.Message`, top level). -/
structure MessageDecl where
  name : String := ""
  isExtend : Bool := false
  elements : List FieldElem := []
  deriving DecidableEq, Repr, Inhabited

/-- A service declaration (`*proto.Service`). -/
structure ServiceDecl where
  name : String := ""
  rpcs : List RpcDecl := []
  deriving DecidableEq, Repr, Inhabited

/-- A top-level element of a parsed file, in source order. -/
inductive ProtoElem where
  | importE (filename : String)
  | packageE (name : String)
  | messageE (m : MessageDecl)
  | enumE (name : String)
  | serviceE (s : ServiceDecl)
  deriving DecidableEq, Repr, Inhabited

/-- A parsed declaration tree (`*proto.Proto`), external collaborator. -/
structure ProtoFile where
  elements : List ProtoElem := []
  deriving DecidableEq, Repr, Inhabited

/-- The file-resolution collaborator: identifier → parsed content. -/
abbrev FileSys := List (String × ProtoFile)

/-- `getPackageName`: the first package element of the file ("" when absent,
with only an alert). -/
def getPackageName (f : ProtoFile) : String :=
  match f.elements.findSome? (fun el => match el with
    | .packageE n => some n
    | _ => none) with
  | some n => n
  | none => ""

/-- `handleEnumDeclaration` (enum body rendering elided).  Note the source
stores `pbs.pkg` — the package name current at walk time — as `protopack`
here, unlike messages/services which store `pbs.proto`. -/
def handleEnumDeclaration (pbs : pbstate) (filePkg name : String) : pbstate :=
  let fullname := filePkg ++ "." ++ name
  let (unique, pbs) := getUniqueName pbs name fullname
  let pbs := saveMapping pbs name fullname
  let info : tinfo := { typename := "enum", fullname := fullname, unique := unique,
                        name := name, protopack := pbs.pkg }
  { pbs with types237 := alInsert fullname info pbs.types237 }

/-- `handleMessageDeclaration`: `extend` messages are skipped; otherwise the
entity is (re-)registered under its qualified name unconditionally. -/
def handleMessageDeclaration (pbs : pbstate) (filePkg : String) (m : MessageDecl) : pbstate :=
  if m.isExtend then pbs
  else
    let fullname := filePkg ++ "." ++ m.name
    let (unique, pbs) := getUniqueName pbs m.name fullname
    let pbs := saveMapping pbs m.name fullname
    let info : tinfo := { typename := "message", fullname := fullname, unique := unique,
                          name := m.name, protopack := pbs.proto }
    { pbs with types237 := alInsert fullname info pbs.types237 }

/-- `handleServiceDeclaration`: registers each RPC method (carrying its raw
request/response references and a parent back-reference) and then the service
itself.  Rendering elided. -/
def handleServiceDeclaration (pbs : pbstate) (filePkg : String) (srv : ServiceDecl) : pbstate :=
  let name := filePkg ++ "." ++ srv.name
  let pbs := saveMapping pbs srv.name name
  let (srvUnique, pbs) := getUniqueName pbs srv.name name
  let pbs := srv.rpcs.foldl (fun pbs rpc =>
    let fullname := name ++ "." ++ rpc.name
    let pbs := saveMapping pbs rpc.name fullname
    let (u, pbs) := getUniqueName pbs rpc.name fullname
    let info : tinfo := { typename := "rpc", fullname := fullname, unique := u,
                          name := rpc.name, protopack := pbs.proto, parent := name,
                          rpcObject := some rpc }
    { pbs with types237 := alInsert fullname info pbs.types237 }) pbs
  let info : tinfo := { typename := "service", fullname := name, unique := srvUnique,
                        name := srv.name, protopack := pbs.proto }
  { pbs with types237 := alInsert name info pbs.types237 }

/-- `handlePackageDeclaration`; `currentPkgInfo` fails fatally when the
current file has no record (modelled from the spec: `assert` aborts the run). -/
def handlePackageDeclaration (pbs : pbstate) (name : String) : Except String pbstate :=
  let pbs := { pbs with pkg := name }
  match lookupA pbs.proto pbs.knownFiles with
  | some pi =>
      let pi := { pi with packageName := name }
      .ok { pbs with knownFiles := alInsert pbs.proto pi pbs.knownFiles }
  | none => .error "assert: somehow there is no pkgInfo available"

/-- Pass 2 over one message (`handleMessageTypeResolution`). -/
def handleMessageTypeResolution (pbs : pbstate) (filePkg : String) (m : MessageDecl) : pbstate :=
  let fullname := filePkg ++ "." ++ m.name
  m.elements.foldl (fun pbs el =>
    match el with
    | .oneof _ fields => fields.foldl (fun pbs f =>
        if isSimpleType f.2 then pbs else resolveType pbs fullname f.2) pbs
    | .normal _ ty => resolveType pbs fullname ty
    | .mapF _ _ ty => resolveType pbs fullname ty) pbs

/-- Pass 2 over one service (`handleServiceTypeResolution`). -/
def handleServiceTypeResolution (pbs : pbstate) (filePkg : String) (srv : ServiceDecl) : pbstate :=
  let fullname := filePkg ++ "." ++ srv.name
  srv.rpcs.foldl (fun pbs rpc =>
    let pbs := resolveType pbs fullname rpc.requestType
    resolveType pbs fullname rpc.returnsType) pbs

/-- `typename2kind`. -/
def typename2kind (t : String) : Option Kind :=
  if t = "enum" then some .Enum
  else if t = "message" then some .Message
  else if t = "missing" then some .Missing
  else none

/-- `getKind`, used while rendering field rows.  Modelled from the spec:
`assert` (outside the embedded file) aborts the run, so an unresolved
reference here is fatal — this is the `UnresolvedReference` error of §7. -/
def getKind (pbs : pbstate) (fullname what : String) : Except String Kind :=
  if isSimpleType what then .ok .Simple
  else match getResolution pbs fullname what with
    | some info =>
        match typename2kind info.typename with
        | some k => .ok k
        | none => .error ("assert: unknown typename found while resolving type " ++ what)
    | none => .error ("assert: unresolved type " ++ what ++ "; source " ++ fullname)

/-- `encounteredType` is a synonym for `recordInclusion` in the source. -/
def encounteredType (pbs : pbstate) (parent field typ : String) : pbstate :=
  recordInclusion pbs parent field typ

/-- `onOneof`: inner oneof fields are resolved and recorded exactly like
normal fields, sharing the owner alias. -/
def onOneof (cfg : Config) (pbs : pbstate) (fullname unique : String)
    (fields : List (String × String)) : pbstate :=
  fields.foldl (fun pbs f =>
    if isSimpleType f.2 then pbs
    else match getResolution pbs fullname f.2 with
      | some inf => encounteredType pbs unique f.1 inf.unique
      | none => recordMissingInclusion cfg pbs unique f.1 f.2) pbs

/-- Pass 3 over one message (`handleMessageBody`): record edges for each
non-scalar field, degrade to a missing placeholder under the configured mode,
and query `getKind` for the rendered row exactly where the source does (after
the edge logic for normal fields, before it for map fields).  The final
write-back `pbs.types237[full] = info` re-registers the entity read at entry
(with its refreshed rendering payload, elided here). -/
def handleMessageBody (cfg : Config) (pbs : pbstate) (filePkg : String)
    (m : MessageDecl) : Except String pbstate :=
  if m.isExtend then .ok pbs
  else
    let full := filePkg ++ "." ++ m.name
    let info := (lookupA full pbs.types237).getD default
    do
      let pbs ← m.elements.foldlM (fun pbs el =>
        match el with
        | .normal fname ty => do
            let pbs :=
              if !isSimpleType ty then
                match getResolution pbs full ty with
                | some inf => encounteredType pbs info.unique fname inf.unique
                | none => recordMissingInclusion cfg pbs info.unique fname ty
              else pbs
            let _ ← getKind pbs full ty
            pure pbs
        | .mapF fname _ ty => do
            let _ ← getKind pbs full ty
            let pbs :=
              if !isSimpleType ty then
                match getResolution pbs full ty with
                | some inf => recordInclusion pbs info.unique fname inf.unique
                | none => recordMissingInclusion cfg pbs info.unique fname ty
              else pbs
            pure pbs
        | .oneof _ fields => pure (onOneof cfg pbs full info.unique fields)) pbs
      pure { pbs with types237 := alInsert full info pbs.types237 }

/-- Pass 3 over one service (`handleServiceBody`): request/response edges use
the synthetic field names `<method>_request` / `<method>_response`.  The
source dereferences `full2info(full)` without a check; a missing record is a
nil-dereference panic, modelled as an error. -/
def handleServiceBody (cfg : Config) (pbs : pbstate) (filePkg : String)
    (srv : ServiceDecl) : Except String pbstate :=
  let full := filePkg ++ "." ++ srv.name
  match lookupA full pbs.types237 with
  | none => .error "panic: nil tinfo dereference in handleServiceBody"
  | some info =>
      .ok (srv.rpcs.foldl (fun pbs rpc =>
        let pbs :=
          if !isSimpleType rpc.requestType then
            match getResolution pbs full rpc.requestType with
            | some inf => recordInclusion pbs info.unique (rpc.name ++ "_request") inf.unique
            | none => recordMissingInclusion cfg pbs info.unique (rpc.name ++ "_request") rpc.requestType
          else pbs
        let pbs :=
          if !isSimpleType rpc.returnsType then
            match getResolution pbs full rpc.returnsType with
            | some inf => recordInclusion pbs info.unique (rpc.name ++ "_response") inf.unique
            | none => recordMissingInclusion cfg pbs info.unique (rpc.name ++ "_response") rpc.returnsType
          else pbs
        pbs) pbs)

/-- `handleImport`, generically over the recursive `process` entry (`proc`).
The previous file identifier and package name are saved before the dive and
restored after it; a fatal error inside the dive propagates (the Go panic
unwinds past the restore). -/
def handleImportGen (proc : pbstate → String → Except String (Bool × pbstate))
    (pbs : pbstate) (filename : String) : Except String pbstate :=
  if pbs.dive then
    let prev := pbs.proto
    let prevPkg := pbs.pkg
    match lookupA pbs.proto pbs.knownFiles with
    | none => .error "assert: somehow there is no pkgInfo available"
    | some pi => do
        let pi := { pi with dependencies := pi.dependencies ++ [filename] }
        let pbs := { pbs with knownFiles := alInsert pbs.proto pi pbs.knownFiles }
        let pbs := { pbs with diveDepth := pbs.diveDepth + 1 }
        let (_, pbs) ← proc pbs filename
        pure { pbs with diveDepth := pbs.diveDepth - 1, pkg := prevPkg, proto := prev }
  else .ok pbs

/-- Pass-1 dispatch (`proto.Walk` with the declaration handlers); options and
comments only log. -/
def pass1Step (proc : pbstate → String → Except String (Bool × pbstate))
    (filePkg : String) (pbs : pbstate) : ProtoElem → Except String pbstate
  | .importE f => handleImportGen proc pbs f
  | .packageE n => handlePackageDeclaration pbs n
  | .messageE m => .ok (handleMessageDeclaration pbs filePkg m)
  | .enumE n => .ok (handleEnumDeclaration pbs filePkg n)
  | .serviceE s => .ok (handleServiceDeclaration pbs filePkg s)

/-- Pass-2 dispatch. -/
def pass2Step (filePkg : String) (pbs : pbstate) : ProtoElem → pbstate
  | .messageE m => handleMessageTypeResolution pbs filePkg m
  | .serviceE s => handleServiceTypeResolution pbs filePkg s
  | _ => pbs

/-- Pass-3 dispatch. -/
def pass3Step (cfg : Config) (filePkg : String) (pbs : pbstate) :
    ProtoElem → Except String pbstate
  | .messageE m => handleMessageBody cfg pbs filePkg m
  | .serviceE s => handleServiceBody cfg pbs filePkg s
  | _ => .ok pbs

/-- `process`, fuel-indexed.  An already-visited identifier short-circuits to
the recorded success/failure.  A file that cannot be obtained is tolerated
(recorded as missing, success=false) only below the root and only under
"allow missing imports"; otherwise the run aborts.  A found file is recorded
as visited, becomes the current file, and its three passes run back to back —
pass 1 recursively processing each import in place.  Root-only
rendering/output steps are elided. -/
def processGo (cfg : Config) (fs : FileSys) :
    Nat → pbstate → String → Except String (Bool × pbstate)
  | 0, _, _ => .error "out of fuel"
  | n + 1, pbs, name =>
    match lookupA name pbs.knownFiles with
    | some inf => .ok (!inf.missing, pbs)
    | none =>
      match lookupA name fs with
      | none =>
          if pbs.diveDepth > 0 && cfg.allowMissingImports then
            let pi : pkgInfo := { fileName := name, missing := true }
            .ok (false, { pbs with knownFiles := alInsert name pi pbs.knownFiles })
          else .error ("panic: failed to open " ++ name)
      | some file =>
          let pi : pkgInfo := { fileName := name }
          let pbs := { pbs with knownFiles := alInsert name pi pbs.knownFiles, proto := name }
          let filePkg := getPackageName file
          do
            let pbs ← file.elements.foldlM
              (fun s el => pass1Step (fun s2 nm => processGo cfg fs n s2 nm) filePkg s el) pbs
            let pbs := file.elements.foldl (fun s el => pass2Step filePkg s el) pbs
            let pbs ← file.elements.foldlM (fun s el => pass3Step cfg filePkg s el) pbs
            pure (true, pbs)

/-- One whole run from a root file.  Recursion depth is bounded by the number
of distinct identifiers ever visited, so `fs.length + 2` fuel never runs out. -/
def runProcess (cfg : Config) (fs : FileSys) (root : String) :
    Except String (Bool × pbstate) :=
  processGo cfg fs (fs.length + 2) NewPbs root

/-- `expandSelection`: `"*"` selects everything declared by the root file;
otherwise each `;`-separated fragment must match exactly one qualified name,
first by suffix, then — only if that found nothing — by substring. -/
def expandSelection (pbs : pbstate) (selection : String) : Except String (List String) :=
  if selection = "*" then
    .ok ((pbs.types237.filter (fun p => p.2.protopack = pbs.proto)).map Prod.fst)
  else
    (splitOnChar ';' selection).foldlM (fun acc root =>
      if root.length = 0 then .ok acc
      else
        let locals := (pbs.types237.filter (fun p => strEndsWith p.1 root)).map Prod.fst
        let locals :=
          if locals.length = 0 then
            (pbs.types237.filter (fun p => containsSub p.1 root)).map Prod.fst
          else locals
        if locals.length = 0 then
          .error ("Cannot find anything matching your selection:" ++ root)
        else if locals.length > 1 then
          .error ("Your selection [" ++ root ++ "] results in more than one entry")
        else .ok (acc ++ [locals.headD ""])) []

/-- Accumulator of the seed pre-loop of `showSelectedInclusion`: the
`posttypes` added at the end without expansion, the directly copied edges,
and the extra qualified names appended to the traversal queue. -/
structure SeedAcc where
  posttypes : List (String × tinfo) := []
  inclusions : List (String × List (String × Nat)) := []
  extra : List String := []
  deriving DecidableEq, Repr, Inhabited

/-- One iteration of the seed pre-loop: a `service` seed needs nothing extra;
an `rpc` seed contributes its owning service (unexpanded), the
`<method>_request` / `<method>_response` edges, and the re-resolved
request/response entities; a `message` seed needs nothing extra; any other
kind is only logged as unsupported. -/
def seedStep (pbs : pbstate) (acc : SeedAcc) (m : String) : Except String SeedAcc :=
  let info := (lookupA m pbs.types237).getD default
  if info.typename = "service" then .ok acc
  else if info.typename = "rpc" then
    match info.rpcObject with
    | some rpc =>
        let parentType := info.parent
        let parentInfo := (lookupA parentType pbs.types237).getD default
        let post := alInsert parentType parentInfo acc.posttypes
        let incs := ["_request", "_response"].foldl (fun incs suffix =>
          match getInclusion pbs parentInfo.unique (rpc.name ++ suffix) with
          | some kv => alInsert kv.1 kv.2 incs
          | none => incs) acc.inclusions
        let extra := [rpc.requestType, rpc.returnsType].foldl (fun ex one =>
          match getResolution pbs parentType one with
          | some inf => ex ++ [inf.fullname]
          | none => ex) acc.extra
        .ok { posttypes := post, inclusions := incs, extra := extra }
    | none => .error "assert: failed to get an expected type"
  else if info.typename = "message" then .ok acc
  else .ok acc

/-- The inner scan of the traversal loop: every recorded edge whose key
starts with the candidate's `<alias>:` contributes its targets; a target
alias mapping back to a known qualified name is enqueued unless already
included, and the edge is copied; an unmapped target is skipped with a
diagnostic. -/
def innerGo (pbs : pbstate) (ts : List (String × tinfo)) (key : String)
    (wval : List (String × Nat)) (l : List (String × Nat))
    (acc : List String × List (String × List (String × Nat))) :
    List String × List (String × List (String × Nat)) :=
  l.foldl (fun acc cp =>
    match lookupA cp.1 pbs.knownNames with
    | some fullchild =>
        let ms := if (lookupA fullchild ts).isSome then acc.1
                  else acc.1 ++ [fullchild]
        (ms, alInsert key wval acc.2)
    | none => acc) acc

def bfsChildInner (pbs : pbstate) (ts : List (String × tinfo))
    (key : String) (value : List (String × Nat))
    (acc : List String × List (String × List (String × Nat))) :
    List String × List (String × List (String × Nat)) :=
  innerGo pbs ts key value value acc

def bfsChildren (pbs : pbstate) (ts : List (String × tinfo)) (u : String)
    (acc : List String × List (String × List (String × Nat))) :
    List String × List (String × List (String × Nat)) :=
  pbs.inclusions.foldl (fun acc kv =>
    if strStartsWith kv.1 u then bfsChildInner pbs ts kv.1 kv.2 acc
    else acc) acc

/-- The reachability traversal of `showSelectedInclusion` (`for len(matches) >
0`), fuel-indexed; a popped candidate already included is skipped, otherwise
it is added and its outgoing edges scanned. -/
def bfsLoop (pbs : pbstate) :
    Nat → List String → List (String × tinfo) →
    List (String × List (String × Nat)) →
    List (String × tinfo) × List (String × List (String × Nat))
  | 0, _, ts, incs => (ts, incs)
  | _ + 1, [], ts, incs => (ts, incs)
  | n + 1, c :: ms, ts, incs =>
    if (lookupA c ts).isSome then bfsLoop pbs n ms ts incs
    else
      let ti := (lookupA c pbs.types237).getD default
      let ts := alInsert c ti ts
      let u := ti.unique ++ ":"
      let msIncs := bfsChildren pbs ts u (ms, incs)
      bfsLoop pbs n msIncs.1 ts msIncs.2

/-- Total number of edge-target slots; each traversal step can enqueue at
most this many new candidates. -/
def totalTargets (pbs : pbstate) : Nat :=
  (pbs.inclusions.map (fun kv => kv.2.length)).sum

/-- Sufficient fuel for `bfsLoop` (proved below): every enqueued name is
either an initial seed or a value of `knownNames`, and each is expanded at
most once. -/
def bfsFuel (pbs : pbstate) (queue : List String) : Nat :=
  queue.length + (totalTargets pbs + 1) * (pbs.knownNames.length + queue.length) + 1

/-- The selection computation of `showSelectedInclusion`: expand the
selection, run the seed pre-loop, traverse, then copy the `posttypes` over
the result.  The subsequent rendering swap is elided. -/
def selectedSets (pbs : pbstate) (selection : String) :
    Except String (List (String × tinfo) × List (String × List (String × Nat))) := do
  let seeds ← expandSelection pbs selection
  let acc ← seeds.foldlM (fun a m => seedStep pbs a m) {}
  let queue := seeds ++ acc.extra
  let tsIncs := bfsLoop pbs (bfsFuel pbs queue) queue [] acc.inclusions
  let types := acc.posttypes.foldl (fun t kv => alInsert kv.1 kv.2 t) tsIncs.1
  pure (types, tsIncs.2)

/-- The namespace-extraction step of `resolveType`'s multi-candidate branch:
the candidate's qualified name minus its final `"." ++ reference` suffix
(`one[:len(one)-len(local)-len(separator)]` in the source). -/
def nsOf (loc c : String) : String :=
  strTake c (c.length - loc.length - 1)

/-- Concrete input for the missing-type claims: one file whose messages `A`
(fields `x`, `y`) and `B` (field `z`) all reference the undeclared `Foo`. -/
def missFiles : FileSys :=
  [("p.proto", { elements := [
      .packageE "p",
      .messageE { name := "A", elements := [.normal "x" "Foo", .normal "y" "Foo"] },
      .messageE { name := "B", elements := [.normal "z" "Foo"] } ] })]

/-- Concrete input for the duplicate-declaration claim: the root `a.proto`
and its import `b.proto` both declare `message M` in package `p`, so the
import's declaration lands first and the root's second. -/
def dupFiles : FileSys :=
  [("a.proto", { elements := [
      .packageE "p", .importE "b.proto",
      .messageE { name := "M" } ] }),
   ("b.proto", { elements := [
      .packageE "p",
      .messageE { name := "M" } ] })]

/-- Concrete input matching the spec's §8 example: `a.proto` references
`b.Bar` declared by its import `b.proto` (resolution along the import
direction). -/
def fwdFiles : FileSys :=
  [("a.proto", { elements := [
      .packageE "a", .importE "b.proto",
      .messageE { name := "Foo", elements := [.normal "x" "b.Bar"] } ] }),
   ("b.proto", { elements := [
      .packageE "b",
      .messageE { name := "Bar" } ] })]

/-- Concrete input with an import cycle `a.proto → b.proto → a.proto` in
which the imported file `b.proto` references `pa.Foo`, declared by the root
`a.proto` (resolution against the import direction). -/
def cycFiles : FileSys :=
  [("a.proto", { elements := [
      .packageE "pa", .importE "b.proto",
      .messageE { name := "Foo" } ] }),
   ("b.proto", { elements := [
      .packageE "pb", .importE "a.proto",
      .messageE { name := "Bar", elements := [.normal "f" "pa.Foo"] } ] })]

/-- Concrete input for the longest-prefix tie-break: candidates `pkg.a.Foo`
and `pkg.a.b.Foo` for the bare reference `Foo` from scope
`pkg.a.b.Handler`. -/
def tieFiles : FileSys :=
  [("r.proto", { elements := [
      .packageE "pkg.a.b", .importE "x.proto",
      .messageE { name := "Foo" },
      .messageE { name := "Handler", elements := [.normal "f" "Foo"] } ] }),
   ("x.proto", { elements := [
      .packageE "pkg.a",
      .messageE { name := "Foo" } ] })]

/-- Concrete input for the dotted-reference claim: the single declared
candidate short-named `Bar` lives at `x.b.Bar`, whose namespace is unrelated
to the referencing scope `a.Msg`; the raw reference is the dotted `b.Bar`. -/
def dottedFiles : FileSys :=
  [("a.proto", { elements := [
      .packageE "a", .importE "x.proto",
      .messageE { name := "Msg", elements := [.normal "f" "b.Bar"] } ] }),
   ("x.proto", { elements := [
      .packageE "x.b",
      .messageE { name := "Bar" } ] })]

/-- Concrete input for the selection claims: a service with two methods and a
message graph with a chain (`Req → Inner`) plus an entity (`Other`) reachable
only through the second method. -/
def selFiles : FileSys :=
  [("s.proto", { elements := [
      .packageE "s",
      .messageE { name := "Req", elements := [.normal "inner" "Inner"] },
      .messageE { name := "Res" },
      .messageE { name := "Inner" },
      .messageE { name := "Other", elements := [.normal "r" "Req"] },
      .serviceE { name := "Svc", rpcs := [
         { name := "Call", requestType := "Req", returnsType := "Res" },
         { name := "Zap", requestType := "Other", returnsType := "Res" } ] } ] })]

/-- The run state produced by `selFiles` (its run succeeds; the fallback
value is never used and only keeps the definition total). -/
def selState : pbstate :=
  match runProcess {} selFiles "s.proto" with
  | .ok r => r.2
  | .error _ => NewPbs

/-- A fresh state that has already visited `f.proto` (for the memo claim). -/
def c9state : pbstate :=
  { NewPbs with knownFiles := [("f.proto", { fileName := "f.proto" })] }

/-- Dive procedure for the frame claim: one `process` step over an empty
file system tolerating missing imports. -/
def c10proc : pbstate → String → Except String (Bool × pbstate) :=
  fun st nm => processGo { allowMissingImports := true } [] 1 st nm

/-- Pre-dive state for the frame claim: root `r.proto`, package `root`. -/
def c10pbs : pbstate :=
  { NewPbs with proto := "r.proto", pkg := "root",
                knownFiles := [("r.proto", { fileName := "r.proto" })] }

/-- The state `c10proc` leaves behind after diving into the missing
`b.proto`: the dependency is recorded, the import is marked missing, and the
current file/package are restored. -/
def c10res : pbstate :=
  { NewPbs with
      proto := "r.proto", pkg := "root",
      knownFiles := [("r.proto", { fileName := "r.proto", dependencies := ["b.proto"] }),
                     ("b.proto", { fileName := "b.proto", missing := true })] }

/-- The namespace-trimming step of `resolveType`'s dotted branch: the
candidate qualified name minus the reference, with one trailing dot
removed. -/
def preOf (loc tn : String) : String :=
  let pre := strTake tn (tn.length - loc.length)
  if strEndsWith pre "." then strDropRight pre 1 else pre

/-- A state declaring `pkg.a.Foo`, `pkg.a.b.Foo` and `pkg.a.b.Handler`
(the spec's longest-prefix tie-break scenario), built with the declaration
handler itself. -/
def c5state : pbstate :=
  handleMessageDeclaration
    (handleMessageDeclaration
      (handleMessageDeclaration NewPbs "pkg.a" { name := "Foo" })
      "pkg.a.b" { name := "Foo" })
    "pkg.a.b" { name := "Handler" }

/-- A state declaring only `x.b.Bar` (single candidate short-named `Bar` in
a namespace unrelated to the scope `a.Msg`). -/
def c6state : pbstate :=
  handleMessageDeclaration NewPbs "x.b" { name := "Bar" }

/-- The `<alias>:` prefix the traversal matches edge keys against for the
entity registered under qualified name `x` (the Go zero value applies when
`x` is unregistered, exactly as `types[candidate].unique` would). -/
def uniqOf (pbs : pbstate) (x : String) : String :=
  ((lookupA x pbs.types237).getD default).unique ++ ":"

/-- One hop from an edge-key prefix `u`: some recorded edge whose key starts
with `u` has a target alias mapping back through `knownNames` to `y`. -/
def stepU (pbs : pbstate) (u y : String) : Prop :=
  ∃ kv ∈ pbs.inclusions, strStartsWith kv.1 u = true ∧
    ∃ cp ∈ kv.2, lookupA cp.1 pbs.knownNames = some y

/-- The inclusion-edge relation the selection traversal follows: entity `x`
(by qualified name) has a recorded edge whose mapped target is `y`. -/
def stepRel (pbs : pbstate) (x y : String) : Prop :=
  stepU pbs (uniqOf pbs x) y

/-- Termination measure of the traversal loop: queue length plus (weighted)
count of names that could still be enqueued but are not yet included. -/
def bfsMeasure (pbs : pbstate) (ms : List String) (ts : List (String × tinfo)) : Nat :=
  ms.length + (totalTargets pbs + 1) *
    ((pbs.knownNames.map Prod.snd ++ ms).toFinset \ (ts.map Prod.fst).toFinset).card

/-!  Theorems.  -/

theorem lookupA_alInsert_self [DecidableEq α] (k : α) (v : β) (l : List (α × β)) :
    lookupA k (alInsert k v l) = some v := by
  induction l with
  | nil => simp [alInsert, lookupA]
  | cons p t ih =>
      by_cases h : p.1 = k
      · simp [alInsert, h, lookupA]
      · simp [alInsert, h, lookupA, ih]

theorem lookupA_alInsert_ne [DecidableEq α] (k k' : α) (v : β) (l : List (α × β))
    (h : k ≠ k') : lookupA k' (alInsert k v l) = lookupA k' l := by
  induction l with
  | nil => simp [alInsert, lookupA, h]
  | cons p t ih =>
      by_cases hp : p.1 = k
      · subst hp
        simp [alInsert, lookupA, h, ih]
      · simp [alInsert, hp, lookupA]
        split <;> simp_all

theorem getUniqueName_fresh (pbs : pbstate) (short full : String)
    (h1 : lookupA short pbs.knownNames ≠ some full) :
    getUniqueName pbs short full =
      ("Ja_" ++ toString pbs.counter,
       { pbs with counter := pbs.counter + 1,
                  knownNames := alInsert ("Ja_" ++ toString pbs.counter) full pbs.knownNames }) := by
  unfold getUniqueName
  cases hl : lookupA short pbs.knownNames with
  | none => rfl
  | some got =>
      have hg : ¬ got = full := fun h => h1 (by rw [hl, h])
      simp [hg]

theorem getUniqueName_proto (pbs : pbstate) (a b : String) :
    (getUniqueName pbs a b).2.proto = pbs.proto := by
  unfold getUniqueName
  cases lookupA a pbs.knownNames with
  | none => rfl
  | some got => by_cases h : got = b <;> simp [h]

/-- C2 counterexample: requesting an alias for the pair `("Foo", "p.Foo")`
twice in a row returns `Ja_100` and then `Ja_101` — two different values —
so the operation is not idempotent as claimed. -/
theorem c2_claim_false :
    (getUniqueName NewPbs "Foo" "p.Foo").1 = "Ja_100" ∧
    (getUniqueName (getUniqueName NewPbs "Foo" "p.Foo").2 "Foo" "p.Foo").1 = "Ja_101" ∧
    "Ja_100" ≠ "Ja_101" := ⟨rfl, rfl, by decide⟩

/-- C2 (amended): unless the short name is itself already registered as an
alias bound to the same qualified name, every alias request allocates the
fresh alias `Ja_<counter>` and advances the counter, so two successive
requests for the same pair return aliases with successive, distinct counter
suffixes rather than the same value. -/
theorem c2_theorem (pbs : pbstate) (short full : String)
    (h1 : lookupA short pbs.knownNames ≠ some full)
    (h2 : short ≠ "Ja_" ++ toString pbs.counter) :
    (getUniqueName pbs short full).1 = "Ja_" ++ toString pbs.counter ∧
    (getUniqueName pbs short full).2.counter = pbs.counter + 1 ∧
    (getUniqueName (getUniqueName pbs short full).2 short full).1 =
      "Ja_" ++ toString (pbs.counter + 1) := by
  have e1 := getUniqueName_fresh pbs short full h1
  have h1b : lookupA short
      (alInsert ("Ja_" ++ toString pbs.counter) full pbs.knownNames) ≠ some full := by
    rw [lookupA_alInsert_ne _ _ _ _ (Ne.symm h2)]
    exact h1
  have e2 := getUniqueName_fresh
    { pbs with counter := pbs.counter + 1,
               knownNames := alInsert ("Ja_" ++ toString pbs.counter) full pbs.knownNames }
    short full h1b
  refine ⟨by rw [e1], by rw [e1], ?_⟩
  rw [e1]
  simpa using congrArg Prod.fst e2

/-- C2 witness: the amended theorem evaluated at the fresh state and the pair
`("Bar", "q.Bar")`. -/
theorem c2_witness :
    (getUniqueName NewPbs "Bar" "q.Bar").1 = "Ja_" ++ toString NewPbs.counter ∧
    (getUniqueName NewPbs "Bar" "q.Bar").2.counter = NewPbs.counter + 1 ∧
    (getUniqueName (getUniqueName NewPbs "Bar" "q.Bar").2 "Bar" "q.Bar").1 =
      "Ja_" ++ toString (NewPbs.counter + 1) :=
  c2_theorem NewPbs "Bar" "q.Bar" (by decide) (by decide)

/-- C3 counterexample: in `missFiles` (messages `A` = alias `Ja_100` and `B`
= alias `Ja_101`, both referencing the undeclared `Foo`) the run with
missing-types mode on produces exactly ONE placeholder — keyed by owner `A`
(`missing.Ja_100.Foo`, alias `Ja_102`) — not one per (owner, name) pair, and
`B`'s edge `Ja_101:z` reuses the placeholder created for the other owner
`A`, contradicting "a placeholder created for a different owner is never
reused". -/
theorem c3_claim_false :
    (runProcess { showMissingTypes := true } missFiles "p.proto").map
      (fun r => ((r.2.types237.filter (fun p => p.2.typename == "missing")).map Prod.fst,
                 lookupA "Ja_101:z" r.2.inclusions,
                 lookupA "Ja_102" r.2.knownNames)) =
    .ok (["missing.Ja_100.Foo"], some [("Ja_102", 1)], some "missing.Ja_100.Foo") := by rfl

/-- C3 (amended): with missing-types mode on, at most one placeholder exists
per missing short name — the first unresolved reference creates it, keyed by
its owner, and every later unresolved reference to that short name (same
owner or not) reuses it via the resolution fallback; placeholder creation is
memoized; with the mode off the same input aborts with the fatal
unresolved-reference error. -/
theorem c3_theorem :
    ((runProcess { showMissingTypes := true } missFiles "p.proto").map
      (fun r => ((r.2.types237.filter (fun p => p.2.typename == "missing")).map Prod.fst,
                 lookupA "Ja_100:x" r.2.inclusions,
                 lookupA "Ja_100:y" r.2.inclusions,
                 lookupA "Ja_101:z" r.2.inclusions)) =
      .ok (["missing.Ja_100.Foo"], some [("Ja_102", 1)], some [("Ja_102", 1)],
           some [("Ja_102", 1)])) ∧
    runProcess {} missFiles "p.proto" = .error "assert: unresolved type Foo; source p.A" ∧
    (∀ (pbs : pbstate) (frm mt : String),
       recordMissingType (recordMissingType pbs frm mt).2 frm mt =
         recordMissingType pbs frm mt) := by
  refine ⟨by rfl, by rfl, ?_⟩
  intro pbs frm mt
  unfold recordMissingType
  cases hl : lookupA ("missing." ++ frm ++ "." ++ mt) pbs.types237 with
  | some info => simp [hl]
  | none =>
      rcases hg : getUniqueName pbs mt ("missing." ++ frm ++ "." ++ mt) with ⟨u, st⟩
      simp [hl, hg, lookupA_alInsert_self]

/-- C4 counterexample: in `dupFiles` the import `b.proto` declares `p.M`
first (receiving alias `Ja_100`) and the root `a.proto` declares it second
(alias `Ja_101`); after both, the registry entry for `p.M` is the second
declaration (alias `Ja_101`, owning file `a.proto`), not the first — both
aliases were indeed allocated for `p.M`, and the run still succeeds. -/
theorem c4_claim_false :
    (runProcess {} dupFiles "a.proto").map
      (fun r => (r.1, (lookupA "p.M" r.2.types237).map (fun i => (i.unique, i.protopack)),
                 lookupA "Ja_100" r.2.knownNames, lookupA "Ja_101" r.2.knownNames)) =
    .ok (true, some ("Ja_101", "a.proto"), some "p.M", some "p.M") := by rfl

/-- C4 (amended): a duplicate qualified name is only logged and the run does
not fail, but the LAST declaration wins — `handleMessageDeclaration`
unconditionally overwrites the registry entry with the newly built entity,
as the concrete duplicate run confirms. -/
theorem c4_theorem :
    (∀ (pbs : pbstate) (filePkg : String) (m : MessageDecl), m.isExtend = false →
       lookupA (filePkg ++ "." ++ m.name) (handleMessageDeclaration pbs filePkg m).types237 =
         some { typename := "message", fullname := filePkg ++ "." ++ m.name,
                unique := (getUniqueName pbs m.name (filePkg ++ "." ++ m.name)).1,
                name := m.name, protopack := pbs.proto }) ∧
    (runProcess {} dupFiles "a.proto").map
      (fun r => (r.1, (lookupA "p.M" r.2.types237).map (fun i => i.unique))) =
      .ok (true, some "Ja_101") := by
  constructor
  · intro pbs filePkg m hm
    unfold handleMessageDeclaration
    rcases hg : getUniqueName pbs m.name (filePkg ++ "." ++ m.name) with ⟨u, st⟩
    have hproto : st.proto = pbs.proto := by
      have := getUniqueName_proto pbs m.name (filePkg ++ "." ++ m.name)
      rw [hg] at this
      exact this
    simp [hm, hg, saveMapping, lookupA_alInsert_self, hproto]
  · rfl

/-- C4 witness: the amended overwrite behaviour evaluated at the fresh state
declaring `message M` in package `p`. -/
theorem c4_witness :
    lookupA ("p" ++ "." ++ "M")
      (handleMessageDeclaration NewPbs "p" { name := "M" }).types237 =
    some { typename := "message", fullname := "p" ++ "." ++ "M",
           unique := (getUniqueName NewPbs "M" ("p" ++ "." ++ "M")).1,
           name := "M", protopack := NewPbs.proto } :=
  c4_theorem.1 NewPbs "p" { name := "M" } rfl

/-- C1 counterexample: in the import cycle `cycFiles` the imported file
`b.proto` references `pa.Foo`, which IS declared by the (visited) root
`a.proto` by the end of the run — yet the reference never resolves: no
memoized resolution exists for scope `pb.Bar`, and the only recorded edge
for `Bar.f` (`Ja_100:f`) points at the missing placeholder
`missing.Ja_100.pa.Foo` (alias `Ja_101`).  Pass 2/3 for `b.proto` ran before
`a.proto`'s declarations were recorded, so resolution does NOT hold
"regardless of import direction". -/
theorem c1_claim_false :
    (runProcess { showMissingTypes := true } cycFiles "a.proto").map
      (fun r => ((lookupA "pa.Foo" r.2.types237).map tinfo.typename,
                 lookupA "pa.Foo" ((lookupA "pb.Bar" r.2.resolutions).getD []),
                 lookupA "Ja_100:f" r.2.inclusions,
                 (lookupA "missing.Ja_100.pa.Foo" r.2.types237).map tinfo.typename)) =
    .ok (some "message", none, some [("Ja_101", 1)], some "missing") := by rfl

/-- C1 (amended): passes 2/3 run per file, immediately after that file's
declaration pass (during which each import is fully processed — all three
passes — before the importing file continues).  A reference therefore
resolves when its target is declared in the file itself or in its
already-completed import subtree — as in the forward example `fwdFiles`,
where `a.Foo`'s reference `b.Bar` is memoized to `b.Bar` and the edge
`Ja_101:x → Ja_100` is recorded — but a reference from an imported file back
to a type of a file still being processed (the cycle `cycFiles`) stays
unresolved and degrades to a placeholder edge. -/
theorem c1_theorem :
    ((runProcess {} fwdFiles "a.proto").map
      (fun r => (lookupA "b.Bar" ((lookupA "a.Foo" r.2.resolutions).getD []),
                 lookupA "Ja_101:x" r.2.inclusions)) =
      .ok (some "b.Bar", some [("Ja_100", 1)])) ∧
    ((runProcess { showMissingTypes := true } cycFiles "a.proto").map
      (fun r => (lookupA "pa.Foo" ((lookupA "pb.Bar" r.2.resolutions).getD []),
                 lookupA "Ja_100:f" r.2.inclusions)) =
      .ok (none, some [("Ja_101", 1)])) := ⟨by rfl, by rfl⟩

set_option maxHeartbeats 2000000 in
/-- C9: an already-visited identifier short-circuits to the recorded
success/failure with the state untouched; consequently the walk over the
two-file import cycle `cycFiles` terminates (its result is already stable at
fuel 3) with each file visited exactly once. -/
theorem c9_theorem :
    (∀ (cfg : Config) (fs : FileSys) (n : Nat) (pbs : pbstate) (name : String)
        (inf : pkgInfo),
        lookupA name pbs.knownFiles = some inf →
        processGo cfg fs (n + 1) pbs name = .ok (!inf.missing, pbs)) ∧
    processGo { showMissingTypes := true } cycFiles 3 NewPbs "a.proto" =
      processGo { showMissingTypes := true } cycFiles 30 NewPbs "a.proto" ∧
    (runProcess { showMissingTypes := true } cycFiles "a.proto").map
      (fun r => r.2.knownFiles.map Prod.fst) = .ok ["a.proto", "b.proto"] := by
  refine ⟨?_, by rfl, by rfl⟩
  intro cfg fs n pbs name inf h
  unfold processGo
  rw [h]

/-- C9 witness: the memo short-circuit evaluated at a state that has already
visited `f.proto`. -/
theorem c9_witness :
    lookupA "f.proto" c9state.knownFiles = some { fileName := "f.proto" } ∧
    processGo {} [] 1 c9state "f.proto" =
      .ok (!({ fileName := "f.proto" } : pkgInfo).missing, c9state) :=
  ⟨rfl, c9_theorem.1 {} [] 0 c9state "f.proto" { fileName := "f.proto" } rfl⟩

/-- C10: whenever `handleImport`'s dive returns (found or tolerated-missing
alike), the importing file's identifier (`proto`) and package name (`pkg`)
are restored to exactly their pre-dive values. -/
theorem c10_theorem (proc : pbstate → String → Except String (Bool × pbstate))
    (pbs : pbstate) (f : String) (s2 : pbstate)
    (h : handleImportGen proc pbs f = .ok s2) :
    s2.proto = pbs.proto ∧ s2.pkg = pbs.pkg := by
  unfold handleImportGen at h
  by_cases hd : pbs.dive
  · rw [if_pos hd] at h
    cases hl : lookupA pbs.proto pbs.knownFiles with
    | none => rw [hl] at h; cases h
    | some pi =>
        rw [hl] at h
        simp only [bind, Except.bind] at h
        split at h
        · cases h
        · rename_i r heq
          rcases r with ⟨b, s3⟩
          simp only [pure, Except.pure] at h
          cases h
          exact ⟨rfl, rfl⟩
  · rw [if_neg hd] at h
    cases h
    exact ⟨rfl, rfl⟩

/-- C10 witness: the restore applied to a concrete dive into a missing (but
tolerated) import from the root file `r.proto` in package `root`. -/
theorem c10_witness :
    ∃ s2, handleImportGen c10proc c10pbs "b.proto" = .ok s2 ∧
      s2.proto = "r.proto" ∧ s2.pkg = "root" := by
  have h : handleImportGen c10proc c10pbs "b.proto" = .ok c10res := rfl
  exact ⟨c10res, h, (c10_theorem c10proc c10pbs "b.proto" c10res h).1,
         (c10_theorem c10proc c10pbs "b.proto" c10res h).2⟩

theorem strEndsWith_length {a b : String} (h : strEndsWith a b = true) :
    b.length ≤ a.length := by
  unfold strEndsWith at h
  rw [List.isSuffixOf_iff_suffix] at h
  exact h.length_le

theorem splitOnChar_gt_one {c : Char} {s : String} (h : 1 < (splitOnChar c s).length) :
    s.data ≠ [] := by
  intro hnil
  simp [splitOnChar, hnil, splitOnCharAux] at h

/-- Behaviour of the strict-longest fold `found` used by both ambiguous
branches of `resolveType`: starting from `acc`, the result is either `acc`
itself with every accepted element no longer than `acc`, or an accepted
element of the list that is at least as long as `acc` and every other
accepted element. -/
theorem maxFold_spec (P : String → Bool) (g : String → String → String)
    (hg : ∀ acc one, g acc one =
      if P one = true then (if one.length > acc.length then one else acc) else acc) :
    ∀ (l : List String) (acc : String),
      (l.foldl g acc = acc ∧ ∀ one ∈ l, P one = true → one.length ≤ acc.length) ∨
      (P (l.foldl g acc) = true ∧ l.foldl g acc ∈ l ∧
        acc.length ≤ (l.foldl g acc).length ∧
        ∀ one ∈ l, P one = true → one.length ≤ (l.foldl g acc).length) := by
  intro l
  induction l with
  | nil => intro acc; exact Or.inl ⟨rfl, by simp⟩
  | cons x t ih =>
      intro acc
      simp only [List.foldl_cons]
      by_cases hp : P x = true
      · by_cases hlen : x.length > acc.length
        · have hgx : g acc x = x := by rw [hg]; simp [hp, hlen]
          rw [hgx]
          rcases ih x with ⟨heq, hall⟩ | ⟨hP, hmem, hge, hall⟩
          · refine Or.inr ⟨by rw [heq]; exact hp, by rw [heq]; exact List.mem_cons_self x t, ?_, ?_⟩
            · rw [heq]; exact Nat.le_of_lt hlen
            · intro one hone hPone
              rcases List.mem_cons.mp hone with h1 | h1
              · subst h1; rw [heq]
              · exact le_trans (hall one h1 hPone) (by rw [heq])
          · refine Or.inr ⟨hP, List.mem_cons_of_mem x hmem, le_trans (Nat.le_of_lt hlen) hge, ?_⟩
            intro one hone hPone
            rcases List.mem_cons.mp hone with h1 | h1
            · subst h1; exact hge
            · exact hall one h1 hPone
        · have hgx : g acc x = acc := by rw [hg]; simp [hp, hlen]
          rw [hgx]
          rcases ih acc with ⟨heq, hall⟩ | ⟨hP, hmem, hge, hall⟩
          · refine Or.inl ⟨heq, ?_⟩
            intro one hone hPone
            rcases List.mem_cons.mp hone with h1 | h1
            · subst h1; exact Nat.le_of_not_lt hlen
            · exact hall one h1 hPone
          · refine Or.inr ⟨hP, List.mem_cons_of_mem x hmem, hge, ?_⟩
            intro one hone hPone
            rcases List.mem_cons.mp hone with h1 | h1
            · subst h1; exact le_trans (Nat.le_of_not_lt hlen) hge
            · exact hall one h1 hPone
      · have hgx : g acc x = acc := by rw [hg]; simp [hp]
        rw [hgx]
        rcases ih acc with ⟨heq, hall⟩ | ⟨hP, hmem, hge, hall⟩
        · refine Or.inl ⟨heq, ?_⟩
          intro one hone hPone
          rcases List.mem_cons.mp hone with h1 | h1
          · subst h1; exact absurd hPone hp
          · exact hall one h1 hPone
        · refine Or.inr ⟨hP, List.mem_cons_of_mem x hmem, hge, ?_⟩
          intro one hone hPone
          rcases List.mem_cons.mp hone with h1 | h1
          · subst h1; exact absurd hPone hp
          · exact hall one h1 hPone

/-- Specification of `pickLongest`: the result is "" with every surviving
candidate of length 0, or a surviving candidate at least as long as every
other survivor. -/
theorem pickLongest_spec (full loc : String) (cands : List String) :
    (pickLongest full loc cands = "" ∧
       ∀ c ∈ cands, strStartsWith full (nsOf loc c) = true → c.length ≤ 0) ∨
    (strStartsWith full (nsOf loc (pickLongest full loc cands)) = true ∧
       pickLongest full loc cands ∈ cands ∧
       ∀ c ∈ cands, strStartsWith full (nsOf loc c) = true →
         c.length ≤ (pickLongest full loc cands).length) := by
  have hg : ∀ acc one,
      (fun (acc one : String) =>
        let ns := strTake one (one.length - loc.length - 1)
        if strStartsWith full ns then
          (if one.length > acc.length then one else acc)
        else acc) acc one =
      if (strStartsWith full (nsOf loc one)) = true then
        (if one.length > acc.length then one else acc) else acc := by
    intro acc one
    by_cases h : strStartsWith full (nsOf loc one) = true <;> simp [nsOf, h]
  have hspec := maxFold_spec (fun one => strStartsWith full (nsOf loc one)) _ hg cands ""
  unfold pickLongest
  rcases hspec with ⟨heq, hall⟩ | ⟨hP, hmem, _, hall⟩
  · exact Or.inl ⟨heq, fun c hc hPc => by simpa using hall c hc hPc⟩
  · exact Or.inr ⟨hP, hmem, hall⟩

/-- Specification of `pickLongestDotted`, over the registered qualified
names. -/
theorem pickLongestDotted_spec (full loc : String) (types : List (String × tinfo)) :
    (pickLongestDotted full loc types = "" ∧
       ∀ k ∈ types.map Prod.fst,
         (strEndsWith k loc && strStartsWith full (preOf loc k)) = true →
           k.length ≤ 0) ∨
    ((strEndsWith (pickLongestDotted full loc types) loc &&
        strStartsWith full (preOf loc (pickLongestDotted full loc types))) = true ∧
       pickLongestDotted full loc types ∈ types.map Prod.fst ∧
       ∀ k ∈ types.map Prod.fst,
         (strEndsWith k loc && strStartsWith full (preOf loc k)) = true →
           k.length ≤ (pickLongestDotted full loc types).length) := by
  have hg : ∀ acc tn,
      (fun (acc tn : String) =>
        if strEndsWith tn loc then
          let pre := strTake tn (tn.length - loc.length)
          let pre := if strEndsWith pre "." then strDropRight pre 1 else pre
          if strStartsWith full pre then
            (if tn.length > acc.length then tn else acc)
          else acc
        else acc) acc tn =
      if (strEndsWith tn loc && strStartsWith full (preOf loc tn)) = true then
        (if tn.length > acc.length then tn else acc) else acc := by
    intro acc tn
    by_cases h1 : strEndsWith tn loc = true
    · by_cases h2 : strStartsWith full (preOf loc tn) = true
      · simp only [preOf] at h2
        simp [h1, h2, preOf]
      · simp only [preOf] at h2
        simp [h1, h2, preOf]
    · simp [h1]
  have hmap : pickLongestDotted full loc types =
      (types.map Prod.fst).foldl (fun (acc tn : String) =>
        if strEndsWith tn loc then
          let pre := strTake tn (tn.length - loc.length)
          let pre := if strEndsWith pre "." then strDropRight pre 1 else pre
          if strStartsWith full pre then
            (if tn.length > acc.length then tn else acc)
          else acc
        else acc) "" := by
    unfold pickLongestDotted
    rw [List.foldl_map]
  have hspec := maxFold_spec
    (fun tn => strEndsWith tn loc && strStartsWith full (preOf loc tn)) _ hg
    (types.map Prod.fst) ""
  rw [hmap]
  rcases hspec with ⟨heq, hall⟩ | ⟨hP, hmem, _, hall⟩
  · exact Or.inl ⟨heq, fun k hk hPk => by simpa using hall k hk hPk⟩
  · exact Or.inr ⟨hP, hmem, hall⟩

/-- C5: for a bare reference with several declared candidates sharing its
short name, `resolveType` keeps the candidates whose namespace (qualified
name minus the short name) is a string prefix of the scope and binds —
memoizing the result — to a survivor with the longest namespace; zero
survivors leave the reference unresolved.  Concretely, resolving `Foo` from
`pkg.a.b.Handler` against `pkg.a.Foo`/`pkg.a.b.Foo` binds to `pkg.a.b.Foo`
and records the edge `Handler.f → pkg.a.b.Foo`. -/
theorem c5_theorem :
    (∀ (pbs : pbstate) (full loc : String) (cands : List String),
       isSimpleType loc = false →
       getResolution pbs full loc = none →
       lookupA loc pbs.translate = some cands →
       1 < cands.length →
       (∀ c ∈ cands, c = nsOf loc c ++ "." ++ loc) →
       ((∀ c ∈ cands, strStartsWith full (nsOf loc c) = false) ∧
          resolveType pbs full loc = pbs) ∨
       (∃ w, w ∈ cands ∧ strStartsWith full (nsOf loc w) = true ∧
          (∀ c ∈ cands, strStartsWith full (nsOf loc c) = true →
             (nsOf loc c).length ≤ (nsOf loc w).length) ∧
          resolveType pbs full loc = addResolution pbs full loc w ∧
          lookupA loc ((lookupA full (resolveType pbs full loc).resolutions).getD [])
            = some w)) ∧
    (runProcess {} tieFiles "r.proto").map
      (fun r => (lookupA "Foo" ((lookupA "pkg.a.b.Handler" r.2.resolutions).getD []),
                 lookupA "Ja_102:f" r.2.inclusions)) =
      .ok (some "pkg.a.b.Foo", some [("Ja_101", 1)]) := by
  refine ⟨?_, by rfl⟩
  intro pbs full loc cands hs hr hc hlen hwf
  have hres : resolveType pbs full loc =
      (if (pickLongest full loc cands).length > 0
       then addResolution pbs full loc (pickLongest full loc cands) else pbs) := by
    unfold resolveType
    rw [if_neg (by simp [hs]), if_neg (by simp [hr])]
    simp only [hc, Option.getD_some]
    rw [if_pos hlen]
  have h1 : (("." : String)).length = 1 := rfl
  have h0 : (("" : String)).length = 0 := rfl
  have hclen : ∀ c ∈ cands, c.length = (nsOf loc c).length + 1 + loc.length := by
    intro c hcm
    conv_lhs => rw [hwf c hcm]
    rw [String.length_append, String.length_append, h1]
  rcases pickLongest_spec full loc cands with ⟨heq, hall⟩ | ⟨hP, hmem, hall⟩
  · left
    constructor
    · intro c hcm
      cases hb : strStartsWith full (nsOf loc c) with
      | false => rfl
      | true =>
          exfalso
          have hle := hall c hcm hb
          have := hclen c hcm
          omega
    · rw [hres, heq, h0]
      simp
  · right
    have hpos : 0 < (pickLongest full loc cands).length := by
      have := hclen _ hmem
      omega
    refine ⟨pickLongest full loc cands, hmem, hP, ?_, ?_, ?_⟩
    · intro c hcm hcP
      have ha := hall c hcm hcP
      have hb := hclen c hcm
      have hcw := hclen _ hmem
      omega
    · rw [hres, if_pos hpos]
    · rw [hres, if_pos hpos]
      simp [addResolution, lookupA_alInsert_self]

/-- C5 witness: the tie-break behaviour evaluated at the declared candidates
`pkg.a.Foo` and `pkg.a.b.Foo` from scope `pkg.a.b.Handler`. -/
theorem c5_witness :
    ((∀ c ∈ ["pkg.a.Foo", "pkg.a.b.Foo"],
        strStartsWith "pkg.a.b.Handler" (nsOf "Foo" c) = false) ∧
       resolveType c5state "pkg.a.b.Handler" "Foo" = c5state) ∨
    (∃ w, w ∈ ["pkg.a.Foo", "pkg.a.b.Foo"] ∧
       strStartsWith "pkg.a.b.Handler" (nsOf "Foo" w) = true ∧
       (∀ c ∈ ["pkg.a.Foo", "pkg.a.b.Foo"],
          strStartsWith "pkg.a.b.Handler" (nsOf "Foo" c) = true →
            (nsOf "Foo" c).length ≤ (nsOf "Foo" w).length) ∧
       resolveType c5state "pkg.a.b.Handler" "Foo" =
         addResolution c5state "pkg.a.b.Handler" "Foo" w ∧
       lookupA "Foo"
         ((lookupA "pkg.a.b.Handler"
            (resolveType c5state "pkg.a.b.Handler" "Foo").resolutions).getD [])
         = some w) :=
  c5_theorem.1 c5state "pkg.a.b.Handler" "Foo" ["pkg.a.Foo", "pkg.a.b.Foo"]
    (by decide) (by rfl) (by rfl) (by decide) (by decide)

/-- C6 counterexample: in `dottedFiles` exactly one declared entity
(`x.b.Bar`) is short-named `Bar` — the last component of the dotted
reference `b.Bar` used from scope `a.Msg` — yet no resolution is memoized
for `(a.Msg, b.Bar)` and the recorded edge `Ja_101:f` points at a missing
placeholder (`missing.Ja_101.b.Bar`, alias `Ja_102`) instead of the single
candidate: the dotted path demands a suffix/scope-prefix relation that the
unrelated namespace `x.b` fails. -/
theorem c6_claim_false :
    (runProcess { showMissingTypes := true } dottedFiles "a.proto").map
      (fun r => ((r.2.types237.filter
                    (fun p => p.2.name == "Bar" && !(p.2.typename == "missing"))).map Prod.fst,
                 lookupA "b.Bar" ((lookupA "a.Msg" r.2.resolutions).getD []),
                 lookupA "Ja_101:f" r.2.inclusions,
                 lookupA "Ja_102" r.2.knownNames)) =
    .ok (["x.b.Bar"], none, some [("Ja_102", 1)], some "missing.Ja_101.b.Bar") := by rfl

/-- C6 (amended): a bare reference with exactly one declared candidate binds
to it and memoizes the result regardless of the candidate's namespace; a
dot-qualified reference instead binds only to a registered qualified name
that ends with the reference and whose remaining prefix (a trailing dot
trimmed) is a string prefix of the scope — the longest such name — and is
left unresolved when no registered name satisfies both conditions, even if
exactly one entity's short name matches the last component. -/
theorem c6_theorem :
    (∀ (pbs : pbstate) (full loc n : String),
       isSimpleType loc = false →
       getResolution pbs full loc = none →
       (splitOnChar '.' loc).length = 1 →
       lookupA loc pbs.translate = some [n] →
       resolveType pbs full loc = addResolution pbs full loc n ∧
       lookupA loc ((lookupA full (resolveType pbs full loc).resolutions).getD [])
         = some n) ∧
    (∀ (pbs : pbstate) (full loc : String),
       isSimpleType loc = false →
       getResolution pbs full loc = none →
       ¬ 1 < ((lookupA loc pbs.translate).getD []).length →
       1 < (splitOnChar '.' loc).length →
       ((∀ k ∈ pbs.types237.map Prod.fst,
           (strEndsWith k loc && strStartsWith full (preOf loc k)) = false) ∧
          resolveType pbs full loc = pbs) ∨
       (∃ w, w ∈ pbs.types237.map Prod.fst ∧
          (strEndsWith w loc && strStartsWith full (preOf loc w)) = true ∧
          (∀ k ∈ pbs.types237.map Prod.fst,
             (strEndsWith k loc && strStartsWith full (preOf loc k)) = true →
               k.length ≤ w.length) ∧
          resolveType pbs full loc = addResolution pbs full loc w ∧
          lookupA loc ((lookupA full (resolveType pbs full loc).resolutions).getD [])
            = some w)) := by
  constructor
  · intro pbs full loc n hs hr hone hc
    have hres : resolveType pbs full loc = addResolution pbs full loc n := by
      unfold resolveType
      rw [if_neg (by simp [hs]), if_neg (by simp [hr])]
      rw [hc]
      simp [hone]
    refine ⟨hres, ?_⟩
    rw [hres]
    simp [addResolution, lookupA_alInsert_self]
  · intro pbs full loc hs hr hnc hparts
    have hres : resolveType pbs full loc =
        (if (pickLongestDotted full loc pbs.types237).length > 0
         then addResolution pbs full loc (pickLongestDotted full loc pbs.types237)
         else pbs) := by
      unfold resolveType
      rw [if_neg (by simp [hs]), if_neg (by simp [hr])]
      rw [if_neg hnc, if_pos hparts]
    have hlocpos : 0 < loc.length := by
      have hne := splitOnChar_gt_one hparts
      have : 0 < loc.data.length := List.length_pos.mpr hne
      exact this
    have hpos : ∀ k : String, (strEndsWith k loc && strStartsWith full (preOf loc k)) = true →
        0 < k.length := by
      intro k hk
      have h1 : strEndsWith k loc = true := by
        cases he : strEndsWith k loc with
        | true => rfl
        | false => rw [he] at hk; simp at hk
      have := strEndsWith_length h1
      omega
    rcases pickLongestDotted_spec full loc pbs.types237 with ⟨heq, hall⟩ | ⟨hP, hmem, hall⟩
    · left
      constructor
      · intro k hk
        cases hb : (strEndsWith k loc && strStartsWith full (preOf loc k)) with
        | false => rfl
        | true =>
            exfalso
            have := hall k hk hb
            have := hpos k hb
            omega
      · rw [hres, heq]
        simp
    · right
      have hwpos : 0 < (pickLongestDotted full loc pbs.types237).length := hpos _ hP
      refine ⟨pickLongestDotted full loc pbs.types237, hmem, hP, hall, ?_, ?_⟩
      · rw [hres, if_pos hwpos]
      · rw [hres, if_pos hwpos]
        simp [addResolution, lookupA_alInsert_self]

/-- C6 witness: the bare-reference half applied to the single candidate
`x.b.Bar` referenced as bare `Bar` from the unrelated scope `a.Msg` — it
binds and memoizes although the namespaces are unrelated. -/
theorem c6_witness :
    resolveType c6state "a.Msg" "Bar" = addResolution c6state "a.Msg" "Bar" "x.b.Bar" ∧
    lookupA "Bar" ((lookupA "a.Msg" (resolveType c6state "a.Msg" "Bar").resolutions).getD [])
      = some "x.b.Bar" :=
  c6_theorem.1 c6state "a.Msg" "Bar" "x.b.Bar" (by decide) (by rfl) (by rfl) (by rfl)

theorem lookupA_mem_values [DecidableEq α] {k : α} {v : β} {l : List (α × β)}
    (h : lookupA k l = some v) : v ∈ l.map Prod.snd := by
  induction l with
  | nil => simp [lookupA] at h
  | cons p t ih =>
      by_cases hp : p.1 = k
      · simp [lookupA, hp] at h
        simp [h]
      · simp only [lookupA, if_neg hp] at h
        simp [ih h]

theorem mem_keys_of_lookupA [DecidableEq α] {k : α} {l : List (α × β)}
    (h : (lookupA k l).isSome = true) : k ∈ l.map Prod.fst := by
  induction l with
  | nil => simp [lookupA] at h
  | cons p t ih =>
      by_cases hp : p.1 = k
      · simp [hp]
      · simp only [lookupA, if_neg hp] at h
        simp [ih h]

theorem lookupA_isSome_of_mem_keys [DecidableEq α] {k : α} {l : List (α × β)}
    (h : k ∈ l.map Prod.fst) : (lookupA k l).isSome = true := by
  induction l with
  | nil => simp at h
  | cons p t ih =>
      by_cases hp : p.1 = k
      · simp [lookupA, hp]
      · rw [List.map_cons, List.mem_cons] at h
        rcases h with h | h
        · exact absurd h.symm hp
        · simp [lookupA, hp, ih h]

theorem lookupA_alInsert_isSome [DecidableEq α] (k c : α) (v : β) (l : List (α × β)) :
    (lookupA k (alInsert c v l)).isSome = true ↔ k = c ∨ (lookupA k l).isSome = true := by
  by_cases h : c = k
  · subst h
    simp [lookupA_alInsert_self]
  · rw [lookupA_alInsert_ne _ _ _ _ h]
    constructor
    · exact Or.inr
    · rintro (h1 | h1)
      · exact absurd h1.symm h
      · exact h1

theorem lookupA_alInsert_preserve [DecidableEq α] {k c : α} {w : β} (v : β)
    {l : List (α × β)} (hc : lookupA c l = none) (h : lookupA k l = some w) :
    lookupA k (alInsert c v l) = some w := by
  have hne : c ≠ k := by
    intro he
    subst he
    rw [hc] at h
    cases h
  rw [lookupA_alInsert_ne _ _ _ _ hne, h]

theorem isSome_alInsert [DecidableEq α] {k : α} {l : List (α × β)} (c : α) (v : β)
    (h : (lookupA k l).isSome = true) :
    (lookupA k (alInsert c v l)).isSome = true := by
  by_cases hc : c = k
  · subst hc
    simp [lookupA_alInsert_self]
  · rw [lookupA_alInsert_ne _ _ _ _ hc]
    exact h

theorem alInsert_keys_new [DecidableEq α] {k : α} (v : β) {l : List (α × β)}
    (h : lookupA k l = none) :
    (alInsert k v l).map Prod.fst = l.map Prod.fst ++ [k] := by
  induction l with
  | nil => simp [alInsert]
  | cons p t ih =>
      by_cases hp : p.1 = k
      · simp [lookupA, hp] at h
      · simp only [lookupA, if_neg hp] at h
        simp [alInsert, hp, ih h]

theorem innerGo_shape (pbs : pbstate) (ts : List (String × tinfo)) (key : String)
    (wval : List (String × Nat)) :
    ∀ (l : List (String × Nat)) (ms : List String)
      (incs : List (String × List (String × Nat))),
      ∃ ex, (innerGo pbs ts key wval l (ms, incs)).1 = ms ++ ex ∧
        (∀ y ∈ ex, (∃ cp ∈ l, lookupA cp.1 pbs.knownNames = some y) ∧
           y ∈ pbs.knownNames.map Prod.snd ∧ lookupA y ts = none) ∧
        ex.length ≤ l.length := by
  intro l
  induction l with
  | nil =>
      intro ms incs
      exact ⟨[], by simp [innerGo], by simp, by simp⟩
  | cons cp t ih =>
      intro ms incs
      cases hk : lookupA cp.1 pbs.knownNames with
      | none =>
          have hstep : innerGo pbs ts key wval (cp :: t) (ms, incs) =
              innerGo pbs ts key wval t (ms, incs) := by
            simp [innerGo, hk]
          rw [hstep]
          rcases ih ms incs with ⟨ex, hex, hprop, hlen⟩
          refine ⟨ex, hex, ?_, by simpa using Nat.le_succ_of_le hlen⟩
          intro y hy
          rcases hprop y hy with ⟨⟨cq, hcq, hcqy⟩, hv, hn⟩
          exact ⟨⟨cq, List.mem_cons_of_mem _ hcq, hcqy⟩, hv, hn⟩
      | some fc =>
          by_cases h2 : (lookupA fc ts).isSome = true
          · have hstep : innerGo pbs ts key wval (cp :: t) (ms, incs) =
                innerGo pbs ts key wval t (ms, alInsert key wval incs) := by
              simp [innerGo, hk, h2]
            rw [hstep]
            rcases ih ms (alInsert key wval incs) with ⟨ex, hex, hprop, hlen⟩
            refine ⟨ex, hex, ?_, by simpa using Nat.le_succ_of_le hlen⟩
            intro y hy
            rcases hprop y hy with ⟨⟨cq, hcq, hcqy⟩, hv, hn⟩
            exact ⟨⟨cq, List.mem_cons_of_mem _ hcq, hcqy⟩, hv, hn⟩
          · have hstep : innerGo pbs ts key wval (cp :: t) (ms, incs) =
                innerGo pbs ts key wval t (ms ++ [fc], alInsert key wval incs) := by
              simp [innerGo, hk, h2]
            rw [hstep]
            rcases ih (ms ++ [fc]) (alInsert key wval incs) with ⟨ex, hex, hprop, hlen⟩
            refine ⟨fc :: ex, by rw [hex, List.append_assoc]; rfl, ?_, by simpa using hlen⟩
            intro y hy
            rcases List.mem_cons.mp hy with hy1 | hy1
            · subst hy1
              refine ⟨⟨cp, List.mem_cons_self cp t, hk⟩, lookupA_mem_values hk, ?_⟩
              exact Option.not_isSome_iff_eq_none.mp (by simpa using h2)
            · rcases hprop y hy1 with ⟨⟨cq, hcq, hcqy⟩, hv, hn⟩
              exact ⟨⟨cq, List.mem_cons_of_mem _ hcq, hcqy⟩, hv, hn⟩

theorem innerGo_complete (pbs : pbstate) (ts : List (String × tinfo)) (key : String)
    (wval : List (String × Nat)) :
    ∀ (l : List (String × Nat)) (ms : List String)
      (incs : List (String × List (String × Nat))) (y : String),
      (∃ cp ∈ l, lookupA cp.1 pbs.knownNames = some y) →
      (lookupA y ts).isSome = true ∨ y ∈ (innerGo pbs ts key wval l (ms, incs)).1 := by
  intro l
  induction l with
  | nil =>
      intro ms incs y hy
      rcases hy with ⟨cp, hcp, _⟩
      simp at hcp
  | cons cp t ih =>
      intro ms incs y hy
      rcases hy with ⟨cq, hcq, hcqy⟩
      rcases List.mem_cons.mp hcq with hcq1 | hcq1
      · subst hcq1
        by_cases h2 : (lookupA y ts).isSome = true
        · exact Or.inl h2
        · have hstep : innerGo pbs ts key wval (cq :: t) (ms, incs) =
              innerGo pbs ts key wval t (ms ++ [y], alInsert key wval incs) := by
            simp [innerGo, hcqy, h2]
          rw [hstep]
          rcases innerGo_shape pbs ts key wval t (ms ++ [y]) (alInsert key wval incs)
            with ⟨ex, hex, _, _⟩
          right
          rw [hex]
          simp
      · cases hk : lookupA cp.1 pbs.knownNames with
        | none =>
            have hstep : innerGo pbs ts key wval (cp :: t) (ms, incs) =
                innerGo pbs ts key wval t (ms, incs) := by
              simp [innerGo, hk]
            rw [hstep]
            exact ih ms incs y ⟨cq, hcq1, hcqy⟩
        | some fc =>
            by_cases h2 : (lookupA fc ts).isSome = true
            · have hstep : innerGo pbs ts key wval (cp :: t) (ms, incs) =
                  innerGo pbs ts key wval t (ms, alInsert key wval incs) := by
                simp [innerGo, hk, h2]
              rw [hstep]
              exact ih ms (alInsert key wval incs) y ⟨cq, hcq1, hcqy⟩
            · have hstep : innerGo pbs ts key wval (cp :: t) (ms, incs) =
                  innerGo pbs ts key wval t (ms ++ [fc], alInsert key wval incs) := by
                simp [innerGo, hk, h2]
              rw [hstep]
              exact ih (ms ++ [fc]) (alInsert key wval incs) y ⟨cq, hcq1, hcqy⟩

theorem innerGo_incs (pbs : pbstate) (ts : List (String × tinfo)) (key : String)
    (wval : List (String × Nat)) (hkey : lookupA key pbs.inclusions = some wval) :
    ∀ (l : List (String × Nat)) (ms : List String)
      (incs : List (String × List (String × Nat))) (k : String)
      (v : List (String × Nat)),
      lookupA k pbs.inclusions = some v →
      lookupA k incs = some v →
      lookupA k (innerGo pbs ts key wval l (ms, incs)).2 = some v := by
  intro l
  induction l with
  | nil =>
      intro ms incs k v _ h
      simpa [innerGo] using h
  | cons cp t ih =>
      intro ms incs k v hkv h
      have hins : lookupA k (alInsert key wval incs) = some v := by
        by_cases hek : key = k
        · subst hek
          rw [hkey] at hkv
          cases hkv
          exact lookupA_alInsert_self _ _ _
        · rw [lookupA_alInsert_ne _ _ _ _ hek]
          exact h
      cases hk : lookupA cp.1 pbs.knownNames with
      | none =>
          have hstep : innerGo pbs ts key wval (cp :: t) (ms, incs) =
              innerGo pbs ts key wval t (ms, incs) := by
            simp [innerGo, hk]
          rw [hstep]
          exact ih ms incs k v hkv h
      | some fc =>
          by_cases h2 : (lookupA fc ts).isSome = true
          · have hstep : innerGo pbs ts key wval (cp :: t) (ms, incs) =
                innerGo pbs ts key wval t (ms, alInsert key wval incs) := by
              simp [innerGo, hk, h2]
            rw [hstep]
            exact ih ms (alInsert key wval incs) k v hkv hins
          · have hstep : innerGo pbs ts key wval (cp :: t) (ms, incs) =
                innerGo pbs ts key wval t (ms ++ [fc], alInsert key wval incs) := by
              simp [innerGo, hk, h2]
            rw [hstep]
            exact ih (ms ++ [fc]) (alInsert key wval incs) k v hkv hins

theorem childrenGo_shape (pbs : pbstate) (ts : List (String × tinfo)) (u : String) :
    ∀ (l : List (String × List (String × Nat))) (ms : List String)
      (incs : List (String × List (String × Nat))),
      (∀ kv ∈ l, kv ∈ pbs.inclusions) →
      ∃ ex, (l.foldl (fun acc kv =>
          if strStartsWith kv.1 u then bfsChildInner pbs ts kv.1 kv.2 acc
          else acc) (ms, incs)).1 = ms ++ ex ∧
        (∀ y ∈ ex, stepU pbs u y ∧ y ∈ pbs.knownNames.map Prod.snd ∧
           lookupA y ts = none) ∧
        ex.length ≤ (l.map (fun kv => kv.2.length)).sum := by
  intro l
  induction l with
  | nil =>
      intro ms incs _
      exact ⟨[], by simp, by simp, by simp⟩
  | cons kv t ih =>
      intro ms incs hsub
      rw [List.foldl_cons]
      by_cases hs : strStartsWith kv.1 u = true
      · rw [if_pos hs]
        rcases hpair : bfsChildInner pbs ts kv.1 kv.2 (ms, incs) with ⟨ms1, incs1⟩
        have hshape := innerGo_shape pbs ts kv.1 kv.2 kv.2 ms incs
        rw [show innerGo pbs ts kv.1 kv.2 kv.2 (ms, incs) =
              bfsChildInner pbs ts kv.1 kv.2 (ms, incs) from rfl, hpair] at hshape
        rcases hshape with ⟨ex1, hex1, hprop1, hlen1⟩
        simp only at hex1
        rcases ih ms1 incs1 (fun q hq => hsub q (List.mem_cons_of_mem _ hq))
          with ⟨ex2, hex2, hprop2, hlen2⟩
        refine ⟨ex1 ++ ex2, ?_, ?_, ?_⟩
        · rw [hex2, hex1, List.append_assoc]
        · intro y hy
          rcases List.mem_append.mp hy with hy1 | hy1
          · rcases hprop1 y hy1 with ⟨⟨cp, hcp, hcpy⟩, hv, hn⟩
            exact ⟨⟨kv, hsub kv (List.mem_cons_self kv t), hs, cp, hcp, hcpy⟩, hv, hn⟩
          · exact hprop2 y hy1
        · rw [List.length_append, List.map_cons, List.sum_cons]
          omega
      · rw [if_neg hs]
        rcases ih ms incs (fun q hq => hsub q (List.mem_cons_of_mem _ hq))
          with ⟨ex, hex, hprop, hlen⟩
        refine ⟨ex, hex, hprop, ?_⟩
        rw [List.map_cons, List.sum_cons]
        omega

theorem childrenGo_complete (pbs : pbstate) (ts : List (String × tinfo)) (u : String) :
    ∀ (l : List (String × List (String × Nat))) (ms : List String)
      (incs : List (String × List (String × Nat))) (y : String),
      (∀ kv ∈ l, kv ∈ pbs.inclusions) →
      (∃ kv ∈ l, strStartsWith kv.1 u = true ∧
         ∃ cp ∈ kv.2, lookupA cp.1 pbs.knownNames = some y) →
      (lookupA y ts).isSome = true ∨
        y ∈ (l.foldl (fun acc kv =>
          if strStartsWith kv.1 u then bfsChildInner pbs ts kv.1 kv.2 acc
          else acc) (ms, incs)).1 := by
  intro l
  induction l with
  | nil =>
      intro ms incs y _ hy
      rcases hy with ⟨kv, hkv, _⟩
      simp at hkv
  | cons kv t ih =>
      intro ms incs y hsub hy
      rw [List.foldl_cons]
      rcases hy with ⟨kw, hkw, hkws, cp, hcp, hcpy⟩
      rcases List.mem_cons.mp hkw with hkw1 | hkw1
      · subst hkw1
        rw [if_pos hkws]
        rcases hpair : bfsChildInner pbs ts kw.1 kw.2 (ms, incs) with ⟨ms1, incs1⟩
        have hcomp := innerGo_complete pbs ts kw.1 kw.2 kw.2 ms incs y ⟨cp, hcp, hcpy⟩
        rw [show innerGo pbs ts kw.1 kw.2 kw.2 (ms, incs) =
              bfsChildInner pbs ts kw.1 kw.2 (ms, incs) from rfl, hpair] at hcomp
        rcases hcomp with hcomp | hcomp
        · exact Or.inl hcomp
        · simp only at hcomp
          rcases childrenGo_shape pbs ts u t ms1 incs1
            (fun q hq => hsub q (List.mem_cons_of_mem _ hq)) with ⟨ex, hex, _, _⟩
          right
          rw [hex]
          exact List.mem_append.mpr (Or.inl hcomp)
      · by_cases hs : strStartsWith kv.1 u = true
        · rw [if_pos hs]
          rcases hpair : bfsChildInner pbs ts kv.1 kv.2 (ms, incs) with ⟨ms1, incs1⟩
          exact ih ms1 incs1 y (fun q hq => hsub q (List.mem_cons_of_mem _ hq))
            ⟨kw, hkw1, hkws, cp, hcp, hcpy⟩
        · rw [if_neg hs]
          exact ih ms incs y (fun q hq => hsub q (List.mem_cons_of_mem _ hq))
            ⟨kw, hkw1, hkws, cp, hcp, hcpy⟩

theorem childrenGo_incs (pbs : pbstate) (ts : List (String × tinfo)) (u : String) :
    ∀ (l : List (String × List (String × Nat))) (ms : List String)
      (incs : List (String × List (String × Nat))) (k : String)
      (v : List (String × Nat)),
      (∀ kv ∈ l, lookupA kv.1 pbs.inclusions = some kv.2) →
      lookupA k pbs.inclusions = some v →
      lookupA k incs = some v →
      lookupA k (l.foldl (fun acc kv =>
        if strStartsWith kv.1 u then bfsChildInner pbs ts kv.1 kv.2 acc
        else acc) (ms, incs)).2 = some v := by
  intro l
  induction l with
  | nil =>
      intro ms incs k v _ _ h
      simpa using h
  | cons kv t ih =>
      intro ms incs k v hl hkv h
      rw [List.foldl_cons]
      by_cases hs : strStartsWith kv.1 u = true
      · rw [if_pos hs]
        rcases hpair : bfsChildInner pbs ts kv.1 kv.2 (ms, incs) with ⟨ms1, incs1⟩
        have hpres := innerGo_incs pbs ts kv.1 kv.2
          (hl kv (List.mem_cons_self kv t)) kv.2 ms incs k v hkv h
        rw [show innerGo pbs ts kv.1 kv.2 kv.2 (ms, incs) =
              bfsChildInner pbs ts kv.1 kv.2 (ms, incs) from rfl, hpair] at hpres
        simp only at hpres
        exact ih ms1 incs1 k v (fun q hq => hl q (List.mem_cons_of_mem _ hq)) hkv hpres
      · rw [if_neg hs]
        exact ih ms incs k v (fun q hq => hl q (List.mem_cons_of_mem _ hq)) hkv h

theorem bfsChildren_shape (pbs : pbstate) (ts : List (String × tinfo)) (u : String)
    (ms : List String) (incs : List (String × List (String × Nat))) :
    ∃ ex, (bfsChildren pbs ts u (ms, incs)).1 = ms ++ ex ∧
      (∀ y ∈ ex, stepU pbs u y ∧ y ∈ pbs.knownNames.map Prod.snd ∧
         lookupA y ts = none) ∧
      ex.length ≤ totalTargets pbs :=
  childrenGo_shape pbs ts u pbs.inclusions ms incs (fun _ h => h)

theorem bfsChildren_complete (pbs : pbstate) (ts : List (String × tinfo)) (u : String)
    (ms : List String) (incs : List (String × List (String × Nat))) (y : String)
    (hy : stepU pbs u y) :
    (lookupA y ts).isSome = true ∨ y ∈ (bfsChildren pbs ts u (ms, incs)).1 :=
  childrenGo_complete pbs ts u pbs.inclusions ms incs y (fun _ h => h) hy

theorem bfsChildren_incs (pbs : pbstate) (ts : List (String × tinfo)) (u : String)
    (ms : List String) (incs : List (String × List (String × Nat)))
    (k : String) (v : List (String × Nat))
    (hcoh : ∀ kv ∈ pbs.inclusions, lookupA kv.1 pbs.inclusions = some kv.2)
    (hkv : lookupA k pbs.inclusions = some v)
    (h : lookupA k incs = some v) :
    lookupA k (bfsChildren pbs ts u (ms, incs)).2 = some v :=
  childrenGo_incs pbs ts u pbs.inclusions ms incs k v hcoh hkv h

theorem bfsLoop_skip (pbs : pbstate) (f : Nat) (c : String) (ms : List String)
    (ts : List (String × tinfo)) (incs : List (String × List (String × Nat)))
    (hc : (lookupA c ts).isSome = true) :
    bfsLoop pbs (f + 1) (c :: ms) ts incs = bfsLoop pbs f ms ts incs := by
  simp [bfsLoop, hc]

theorem bfsLoop_fresh (pbs : pbstate) (f : Nat) (c : String) (ms : List String)
    (ts : List (String × tinfo)) (incs : List (String × List (String × Nat)))
    (hc : ¬ (lookupA c ts).isSome = true) :
    bfsLoop pbs (f + 1) (c :: ms) ts incs =
      bfsLoop pbs f
        (bfsChildren pbs (alInsert c ((lookupA c pbs.types237).getD default) ts)
          (uniqOf pbs c) (ms, incs)).1
        (alInsert c ((lookupA c pbs.types237).getD default) ts)
        (bfsChildren pbs (alInsert c ((lookupA c pbs.types237).getD default) ts)
          (uniqOf pbs c) (ms, incs)).2 := by
  simp [bfsLoop, hc, uniqOf]

theorem measure_tail (pbs : pbstate) (c : String) (ms : List String)
    (ts : List (String × tinfo)) :
    bfsMeasure pbs ms ts + 1 ≤ bfsMeasure pbs (c :: ms) ts := by
  unfold bfsMeasure
  have hsub : ((pbs.knownNames.map Prod.snd ++ ms).toFinset \
        (ts.map Prod.fst).toFinset) ⊆
      ((pbs.knownNames.map Prod.snd ++ c :: ms).toFinset \
        (ts.map Prod.fst).toFinset) := by
    intro x hx
    simp only [Finset.mem_sdiff, List.mem_toFinset, List.mem_append,
      List.mem_cons] at hx ⊢
    tauto
  have hm := Nat.mul_le_mul_left (totalTargets pbs + 1) (Finset.card_le_card hsub)
  simp only [List.length_cons]
  omega

theorem measure_fresh (pbs : pbstate) (c : String) (ms : List String)
    (ts : List (String × tinfo)) (ti : tinfo) (ex : List String)
    (hex_sub : ∀ y ∈ ex, y ∈ pbs.knownNames.map Prod.snd)
    (hex_len : ex.length ≤ totalTargets pbs)
    (hc_new : lookupA c ts = none) :
    bfsMeasure pbs (ms ++ ex) (alInsert c ti ts) + 2 ≤ bfsMeasure pbs (c :: ms) ts := by
  unfold bfsMeasure
  have hkeys := alInsert_keys_new ti hc_new
  have hcnotin : c ∉ ts.map Prod.fst := by
    intro hm
    have hs := lookupA_isSome_of_mem_keys hm
    rw [hc_new] at hs
    simp at hs
  have hcA : c ∈ (pbs.knownNames.map Prod.snd ++ c :: ms).toFinset \
      (ts.map Prod.fst).toFinset := by
    rw [Finset.mem_sdiff, List.mem_toFinset, List.mem_toFinset]
    exact ⟨by simp, hcnotin⟩
  have hsub : ((pbs.knownNames.map Prod.snd ++ (ms ++ ex)).toFinset \
        ((alInsert c ti ts).map Prod.fst).toFinset) ⊆
      ((pbs.knownNames.map Prod.snd ++ c :: ms).toFinset \
        (ts.map Prod.fst).toFinset).erase c := by
    intro x hx
    simp only [Finset.mem_sdiff, List.mem_toFinset, List.mem_append, hkeys,
      List.mem_cons, List.mem_singleton] at hx
    rcases hx with ⟨hx1, hx2⟩
    have hxc : ¬ x = c := fun he => hx2 (Or.inr (by simp [he]))
    have hxts : x ∉ ts.map Prod.fst := fun hm => hx2 (Or.inl hm)
    rw [Finset.mem_erase]
    refine ⟨hxc, ?_⟩
    simp only [Finset.mem_sdiff, List.mem_toFinset, List.mem_append, List.mem_cons]
    refine ⟨?_, hxts⟩
    rcases hx1 with h | h | h
    · exact Or.inl h
    · exact Or.inr (Or.inr h)
    · exact Or.inl (hex_sub x h)
  have hcard1 := Finset.card_le_card hsub
  rw [Finset.card_erase_of_mem hcA] at hcard1
  have hcardpos : 1 ≤ ((pbs.knownNames.map Prod.snd ++ c :: ms).toFinset \
      (ts.map Prod.fst).toFinset).card := Finset.card_pos.mpr ⟨c, hcA⟩
  have hstep : ((pbs.knownNames.map Prod.snd ++ (ms ++ ex)).toFinset \
        ((alInsert c ti ts).map Prod.fst).toFinset).card + 1 ≤
      ((pbs.knownNames.map Prod.snd ++ c :: ms).toFinset \
        (ts.map Prod.fst).toFinset).card := by omega
  have hm : (totalTargets pbs + 1) *
      (((pbs.knownNames.map Prod.snd ++ (ms ++ ex)).toFinset \
        ((alInsert c ti ts).map Prod.fst).toFinset).card + 1) ≤
      (totalTargets pbs + 1) *
      ((pbs.knownNames.map Prod.snd ++ c :: ms).toFinset \
        (ts.map Prod.fst).toFinset).card :=
    Nat.mul_le_mul_left _ hstep
  rw [Nat.mul_add, Nat.mul_one] at hm
  simp only [List.length_append, List.length_cons]
  omega

theorem bfsLoop_preserve (pbs : pbstate) :
    ∀ (f : Nat) (ms : List String) (ts : List (String × tinfo))
      (incs : List (String × List (String × Nat))) (k : String) (v : tinfo),
      lookupA k ts = some v →
      lookupA k (bfsLoop pbs f ms ts incs).1 = some v := by
  intro f
  induction f with
  | zero => intro ms ts incs k v h; cases ms <;> exact h
  | succ f ih =>
      intro ms ts incs k v h
      cases ms with
      | nil => exact h
      | cons c ms =>
          by_cases hc : (lookupA c ts).isSome = true
          · rw [bfsLoop_skip pbs f c ms ts incs hc]
            exact ih ms ts incs k v h
          · rw [bfsLoop_fresh pbs f c ms ts incs hc]
            have hnone : lookupA c ts = none := by
              cases hl : lookupA c ts with
              | none => rfl
              | some w => rw [hl] at hc; simp at hc
            exact ih _ _ _ k v (lookupA_alInsert_preserve _ hnone h)

theorem bfsLoop_isSome_preserve (pbs : pbstate) (f : Nat) (ms : List String)
    (ts : List (String × tinfo)) (incs : List (String × List (String × Nat)))
    (k : String) (h : (lookupA k ts).isSome = true) :
    (lookupA k (bfsLoop pbs f ms ts incs).1).isSome = true := by
  rcases Option.isSome_iff_exists.mp h with ⟨v, hv⟩
  rw [bfsLoop_preserve pbs f ms ts incs k v hv]
  rfl

theorem bfsLoop_sound (pbs : pbstate) (P : String → Prop)
    (hstep : ∀ a b, P a → stepRel pbs a b → P b) :
    ∀ (f : Nat) (ms : List String) (ts : List (String × tinfo))
      (incs : List (String × List (String × Nat))),
      (∀ q ∈ ms, P q) →
      (∀ k, (lookupA k ts).isSome = true → P k) →
      ∀ k, (lookupA k (bfsLoop pbs f ms ts incs).1).isSome = true → P k := by
  intro f
  induction f with
  | zero =>
      intro ms ts incs _ hts k hk
      cases ms <;> exact hts k hk
  | succ f ih =>
      intro ms ts incs hms hts k hk
      cases ms with
      | nil => exact hts k hk
      | cons c ms =>
          by_cases hc : (lookupA c ts).isSome = true
          · rw [bfsLoop_skip pbs f c ms ts incs hc] at hk
            exact ih ms ts incs (fun q hq => hms q (List.mem_cons_of_mem _ hq)) hts k hk
          · rw [bfsLoop_fresh pbs f c ms ts incs hc] at hk
            rcases bfsChildren_shape pbs
                (alInsert c ((lookupA c pbs.types237).getD default) ts)
                (uniqOf pbs c) ms incs with ⟨ex, hex, hprop, _⟩
            rw [hex] at hk
            refine ih _ _ _ ?_ ?_ k hk
            · intro q hq
              rcases List.mem_append.mp hq with hq1 | hq1
              · exact hms q (List.mem_cons_of_mem _ hq1)
              · exact hstep c q (hms c (List.mem_cons_self c ms)) (hprop q hq1).1
            · intro k2 hk2
              rcases (lookupA_alInsert_isSome k2 c _ ts).mp hk2 with h1 | h1
              · subst h1
                exact hms _ (List.mem_cons_self _ _)
              · exact hts k2 h1

theorem bfsLoop_enqueued (pbs : pbstate) :
    ∀ (f : Nat) (ms : List String) (ts : List (String × tinfo))
      (incs : List (String × List (String × Nat))),
      bfsMeasure pbs ms ts ≤ f →
      ∀ q ∈ ms, (lookupA q (bfsLoop pbs f ms ts incs).1).isSome = true := by
  intro f
  induction f with
  | zero =>
      intro ms ts incs hf q hq
      unfold bfsMeasure at hf
      have : ms.length = 0 := by omega
      rw [List.length_eq_zero] at this
      subst this
      simp at hq
  | succ f ih =>
      intro ms ts incs hf q hq
      cases ms with
      | nil => simp at hq
      | cons c ms =>
          by_cases hc : (lookupA c ts).isSome = true
          · rw [bfsLoop_skip pbs f c ms ts incs hc]
            rcases List.mem_cons.mp hq with hq1 | hq1
            · subst hq1
              exact bfsLoop_isSome_preserve pbs f ms ts incs q hc
            · have hmeas := measure_tail pbs c ms ts
              exact ih ms ts incs (by omega) q hq1
          · rw [bfsLoop_fresh pbs f c ms ts incs hc]
            have hnone : lookupA c ts = none := by
              cases hl : lookupA c ts with
              | none => rfl
              | some w => rw [hl] at hc; simp at hc
            rcases bfsChildren_shape pbs
                (alInsert c ((lookupA c pbs.types237).getD default) ts)
                (uniqOf pbs c) ms incs with ⟨ex, hex, hprop, hlen⟩
            have hexkv : ∀ y ∈ ex, y ∈ pbs.knownNames.map Prod.snd :=
              fun y hy => (hprop y hy).2.1
            have hmeas := measure_fresh pbs c ms ts
              ((lookupA c pbs.types237).getD default) ex hexkv hlen hnone
            rw [hex]
            rcases List.mem_cons.mp hq with hq1 | hq1
            · subst hq1
              exact bfsLoop_isSome_preserve pbs f _ _ _ q
                (by rw [lookupA_alInsert_self]; rfl)
            · exact ih _ _ _ (by omega) q (List.mem_append.mpr (Or.inl hq1))

theorem bfsLoop_closed (pbs : pbstate) :
    ∀ (f : Nat) (ms : List String) (ts : List (String × tinfo))
      (incs : List (String × List (String × Nat))),
      bfsMeasure pbs ms ts ≤ f →
      (∀ x y, (lookupA x ts).isSome = true → stepRel pbs x y →
        ((lookupA y ts).isSome = true ∨ y ∈ ms)) →
      ∀ x y, (lookupA x (bfsLoop pbs f ms ts incs).1).isSome = true →
        stepRel pbs x y →
        (lookupA y (bfsLoop pbs f ms ts incs).1).isSome = true := by
  intro f
  induction f with
  | zero =>
      intro ms ts incs hf hinv x y hx hxy
      unfold bfsMeasure at hf
      have : ms.length = 0 := by omega
      rw [List.length_eq_zero] at this
      subst this
      cases hinv x y hx hxy with
      | inl h => exact h
      | inr h => simp at h
  | succ f ih =>
      intro ms ts incs hf hinv x y hx hxy
      cases ms with
      | nil =>
          cases hinv x y hx hxy with
          | inl h => exact h
          | inr h => simp at h
      | cons c ms =>
          by_cases hc : (lookupA c ts).isSome = true
          · rw [bfsLoop_skip pbs f c ms ts incs hc] at hx ⊢
            have hmeas := measure_tail pbs c ms ts
            refine ih ms ts incs (by omega) ?_ x y hx hxy
            intro a b ha hab
            rcases hinv a b ha hab with h1 | h1
            · exact Or.inl h1
            · rcases List.mem_cons.mp h1 with h2 | h2
              · subst h2
                exact Or.inl hc
              · exact Or.inr h2
          · rw [bfsLoop_fresh pbs f c ms ts incs hc] at hx ⊢
            have hnone : lookupA c ts = none := by
              cases hl : lookupA c ts with
              | none => rfl
              | some w => rw [hl] at hc; simp at hc
            rcases bfsChildren_shape pbs
                (alInsert c ((lookupA c pbs.types237).getD default) ts)
                (uniqOf pbs c) ms incs with ⟨ex, hex, hprop, hlen⟩
            have hexkv : ∀ y2 ∈ ex, y2 ∈ pbs.knownNames.map Prod.snd :=
              fun y2 hy2 => (hprop y2 hy2).2.1
            have hmeas := measure_fresh pbs c ms ts
              ((lookupA c pbs.types237).getD default) ex hexkv hlen hnone
            rw [hex] at hx ⊢
            refine ih _ _ _ (by omega) ?_ x y hx hxy
            intro a b ha hab
            rcases (lookupA_alInsert_isSome a c _ ts).mp ha with h1 | h1
            · subst h1
              have := bfsChildren_complete pbs
                (alInsert a ((lookupA a pbs.types237).getD default) ts)
                (uniqOf pbs a) ms incs b hab
              rcases this with h2 | h2
              · exact Or.inl h2
              · rw [hex] at h2
                exact Or.inr h2
            · rcases hinv a b h1 hab with h2 | h2
              · exact Or.inl (isSome_alInsert c _ h2)
              · rcases List.mem_cons.mp h2 with h3 | h3
                · subst h3
                  exact Or.inl (by rw [lookupA_alInsert_self]; rfl)
                · exact Or.inr (List.mem_append.mpr (Or.inl h3))

theorem bfsLoop_incs (pbs : pbstate)
    (hcoh : ∀ kv ∈ pbs.inclusions, lookupA kv.1 pbs.inclusions = some kv.2) :
    ∀ (f : Nat) (ms : List String) (ts : List (String × tinfo))
      (incs : List (String × List (String × Nat))) (k : String)
      (v : List (String × Nat)),
      lookupA k pbs.inclusions = some v →
      lookupA k incs = some v →
      lookupA k (bfsLoop pbs f ms ts incs).2 = some v := by
  intro f
  induction f with
  | zero => intro ms ts incs k v _ h; cases ms <;> exact h
  | succ f ih =>
      intro ms ts incs k v hkv h
      cases ms with
      | nil => exact h
      | cons c ms =>
          by_cases hc : (lookupA c ts).isSome = true
          · rw [bfsLoop_skip pbs f c ms ts incs hc]
            exact ih ms ts incs k v hkv h
          · rw [bfsLoop_fresh pbs f c ms ts incs hc]
            have hpres := bfsChildren_incs pbs
              (alInsert c ((lookupA c pbs.types237).getD default) ts)
              (uniqOf pbs c) ms incs k v hcoh hkv h
            exact ih _ _ _ k v hkv hpres

theorem bfsFuel_ge (pbs : pbstate) (ms : List String) :
    bfsMeasure pbs ms [] ≤ bfsFuel pbs ms := by
  unfold bfsMeasure bfsFuel
  have h1 : ((pbs.knownNames.map Prod.snd ++ ms).toFinset \
      (([] : List (String × tinfo)).map Prod.fst).toFinset).card ≤
      pbs.knownNames.length + ms.length := by
    simp only [List.map_nil, List.toFinset_nil, Finset.sdiff_empty]
    calc (pbs.knownNames.map Prod.snd ++ ms).toFinset.card
        ≤ (pbs.knownNames.map Prod.snd ++ ms).length := List.toFinset_card_le _
      _ = pbs.knownNames.length + ms.length := by simp
  have h2 := Nat.mul_le_mul_left (totalTargets pbs + 1) h1
  omega

theorem getInclusion_lookup {pbs : pbstate} {a b k : String}
    {v : List (String × Nat)} (h : getInclusion pbs a b = some (k, v)) :
    lookupA k pbs.inclusions = some v := by
  have h2 : (lookupA (edgeKey a b) pbs.inclusions).map
      (fun inc => (edgeKey a b, inc)) = some (k, v) := h
  cases hl : lookupA (edgeKey a b) pbs.inclusions with
  | none => rw [hl] at h2; simp at h2
  | some w =>
      rw [hl] at h2
      have h3 : (edgeKey a b, w) = (k, v) := by simpa using h2
      have hk : edgeKey a b = k := congrArg Prod.fst h3
      have hv : w = v := congrArg Prod.snd h3
      rw [← hk, hl, hv]

/-- C8: selecting a fragment that expands to exactly one message-kind entity
returns (besides the copied edge subset) exactly that message plus every
entity reachable from it through the recorded inclusion edges — transitively
— and nothing else. -/
theorem c8_theorem (pbs : pbstate) (sel m : String) (minfo : tinfo)
    (hexp : expandSelection pbs sel = .ok [m])
    (hm : lookupA m pbs.types237 = some minfo)
    (hkind : minfo.typename = "message") :
    ∃ T I, selectedSets pbs sel = .ok (T, I) ∧
      ∀ y, (lookupA y T).isSome = true ↔
        Relation.ReflTransGen (stepRel pbs) m y := by
  have hseed : seedStep pbs ({} : SeedAcc) m = .ok {} := by
    simp [seedStep, hm, hkind]
  have hsel : selectedSets pbs sel =
      .ok ((bfsLoop pbs (bfsFuel pbs [m]) [m] [] []).1,
           (bfsLoop pbs (bfsFuel pbs [m]) [m] [] []).2) := by
    simp [selectedSets, hexp, hseed, bind, Except.bind, pure, Except.pure]
  refine ⟨_, _, hsel, ?_⟩
  intro y
  constructor
  · intro hy
    refine bfsLoop_sound pbs (fun z => Relation.ReflTransGen (stepRel pbs) m z)
      ?_ (bfsFuel pbs [m]) [m] [] [] ?_ ?_ y hy
    · intro a b ha hab
      exact Relation.ReflTransGen.tail ha hab
    · intro q hq
      rw [List.mem_singleton] at hq
      subst hq
      exact Relation.ReflTransGen.refl
    · intro k hk
      rw [show lookupA k ([] : List (String × tinfo)) = none from rfl] at hk
      simp at hk
  · intro hy
    induction hy with
    | refl =>
        exact bfsLoop_enqueued pbs (bfsFuel pbs [m]) [m] [] []
          (bfsFuel_ge pbs [m]) m (List.mem_singleton.mpr rfl)
    | tail hab hbc ih =>
        refine bfsLoop_closed pbs (bfsFuel pbs [m]) [m] [] []
          (bfsFuel_ge pbs [m]) ?_ _ _ ih hbc
        intro a b ha _
        rw [show lookupA a ([] : List (String × tinfo)) = none from rfl] at ha
        simp at ha

/-- C8 witness: selecting `Other` in the `selFiles` run — the resulting
entity set is precisely the reachability closure of `s.Other`. -/
theorem c8_witness :
    ∃ T I, selectedSets selState "Other" = .ok (T, I) ∧
      ∀ y, (lookupA y T).isSome = true ↔
        Relation.ReflTransGen (stepRel selState) "s.Other" y :=
  c8_theorem selState "Other" "s.Other"
    { typename := "message", fullname := "s.Other", unique := "Ja_103",
      name := "Other", protopack := "s.proto" }
    (by rfl) (by rfl) rfl

/-- C7: selecting a fragment that expands to exactly one RPC-method entity
yields a result that contains the owning service, the resolved request and
response entities (and their closures), and the direct
service-to-request/response edges copied verbatim from the recorded edge
set; and nothing beyond the service and what is reachable from the three
seeds — in particular the service's other methods are not expanded. -/
theorem c7_theorem (pbs : pbstate) (sel r : String) (info pinfo qinf sinf : tinfo)
    (rpc : RpcDecl) (kq ks : String) (vq vs : List (String × Nat))
    (hexp : expandSelection pbs sel = .ok [r])
    (hr : lookupA r pbs.types237 = some info)
    (hkind : info.typename = "rpc")
    (hobj : info.rpcObject = some rpc)
    (hpar : lookupA info.parent pbs.types237 = some pinfo)
    (hgq : getInclusion pbs pinfo.unique (rpc.name ++ "_request") = some (kq, vq))
    (hgs : getInclusion pbs pinfo.unique (rpc.name ++ "_response") = some (ks, vs))
    (hresq : getResolution pbs info.parent rpc.requestType = some qinf)
    (hress : getResolution pbs info.parent rpc.returnsType = some sinf)
    (hkqks : kq ≠ ks)
    (hcoh : ∀ kv ∈ pbs.inclusions, lookupA kv.1 pbs.inclusions = some kv.2) :
    ∃ T I, selectedSets pbs sel = .ok (T, I) ∧
      lookupA info.parent T = some pinfo ∧
      (lookupA qinf.fullname T).isSome = true ∧
      (lookupA sinf.fullname T).isSome = true ∧
      lookupA kq I = some vq ∧
      lookupA ks I = some vs ∧
      (∀ y, (lookupA y T).isSome = true →
         y = info.parent ∨ ∃ x ∈ [r, qinf.fullname, sinf.fullname],
           Relation.ReflTransGen (stepRel pbs) x y) := by
  have hseed : seedStep pbs ({} : SeedAcc) r = .ok
      { posttypes := [(info.parent, pinfo)],
        inclusions := alInsert ks vs (alInsert kq vq []),
        extra := [qinf.fullname, sinf.fullname] } := by
    simp [seedStep, hr, hkind, hobj, hpar, hgq, hgs, hresq, hress, alInsert]
  have hsel : selectedSets pbs sel =
      .ok (alInsert info.parent pinfo
             (bfsLoop pbs (bfsFuel pbs [r, qinf.fullname, sinf.fullname])
               [r, qinf.fullname, sinf.fullname] []
               (alInsert ks vs (alInsert kq vq []))).1,
           (bfsLoop pbs (bfsFuel pbs [r, qinf.fullname, sinf.fullname])
             [r, qinf.fullname, sinf.fullname] []
             (alInsert ks vs (alInsert kq vq []))).2) := by
    simp [selectedSets, hexp, hseed, bind, Except.bind, pure, Except.pure]
  have hkvq : lookupA kq pbs.inclusions = some vq := getInclusion_lookup hgq
  have hkvs : lookupA ks pbs.inclusions = some vs := getInclusion_lookup hgs
  have hq0 : lookupA kq (alInsert ks vs (alInsert kq vq [])) = some vq := by
    rw [lookupA_alInsert_ne _ _ _ _ (Ne.symm hkqks)]
    exact lookupA_alInsert_self _ _ _
  have hs0 : lookupA ks (alInsert ks vs (alInsert kq vq [])) = some vs :=
    lookupA_alInsert_self _ _ _
  refine ⟨_, _, hsel, lookupA_alInsert_self _ _ _, ?_, ?_, ?_, ?_, ?_⟩
  · exact isSome_alInsert _ _
      (bfsLoop_enqueued pbs _ _ _ _
        (bfsFuel_ge pbs [r, qinf.fullname, sinf.fullname]) qinf.fullname (by simp))
  · exact isSome_alInsert _ _
      (bfsLoop_enqueued pbs _ _ _ _
        (bfsFuel_ge pbs [r, qinf.fullname, sinf.fullname]) sinf.fullname (by simp))
  · exact bfsLoop_incs pbs hcoh _ _ _ _ kq vq hkvq hq0
  · exact bfsLoop_incs pbs hcoh _ _ _ _ ks vs hkvs hs0
  · intro y hy
    rcases (lookupA_alInsert_isSome y info.parent pinfo _).mp hy with h1 | h1
    · exact Or.inl h1
    · right
      refine bfsLoop_sound pbs
        (fun z => ∃ x ∈ [r, qinf.fullname, sinf.fullname],
          Relation.ReflTransGen (stepRel pbs) x z) ?_ _ _ _ _ ?_ ?_ y h1
      · intro a b ha hab
        rcases ha with ⟨x, hx, hxa⟩
        exact ⟨x, hx, Relation.ReflTransGen.tail hxa hab⟩
      · intro q hq
        exact ⟨q, hq, Relation.ReflTransGen.refl⟩
      · intro k hk
        rw [show lookupA k ([] : List (String × tinfo)) = none from rfl] at hk
        simp at hk

/-- C7 witness: selecting `Call` in the `selFiles` run — the service `s.Svc`
is included with its `Call_request`/`Call_response` edges and the resolved
`s.Req`/`s.Res` entities, and nothing outside the service and the closure of
the three seeds. -/
theorem c7_witness :
    ∃ T I, selectedSets selState "Call" = .ok (T, I) ∧
      lookupA "s.Svc" T =
        some { typename := "service", fullname := "s.Svc", unique := "Ja_104",
               name := "Svc", protopack := "s.proto" } ∧
      (lookupA "s.Req" T).isSome = true ∧
      (lookupA "s.Res" T).isSome = true ∧
      lookupA "Ja_104:Call_request" I = some [("Ja_100", 1)] ∧
      lookupA "Ja_104:Call_response" I = some [("Ja_101", 1)] ∧
      (∀ y, (lookupA y T).isSome = true →
         y = "s.Svc" ∨ ∃ x ∈ ["s.Svc.Call", "s.Req", "s.Res"],
           Relation.ReflTransGen (stepRel selState) x y) :=
  c7_theorem selState "Call" "s.Svc.Call"
    { typename := "rpc", fullname := "s.Svc.Call", unique := "Ja_105",
      name := "Call", protopack := "s.proto", parent := "s.Svc",
      rpcObject := some { name := "Call", requestType := "Req", returnsType := "Res" } }
    { typename := "service", fullname := "s.Svc", unique := "Ja_104",
      name := "Svc", protopack := "s.proto" }
    { typename := "message", fullname := "s.Req", unique := "Ja_100",
      name := "Req", protopack := "s.proto" }
    { typename := "message", fullname := "s.Res", unique := "Ja_101",
      name := "Res", protopack := "s.proto" }
    { name := "Call", requestType := "Req", returnsType := "Res" }
    "Ja_104:Call_request" "Ja_104:Call_response" [("Ja_100", 1)] [("Ja_101", 1)]
    (by rfl) (by rfl) rfl rfl (by rfl) (by rfl) (by rfl) (by rfl) (by rfl)
    (by decide) (by decide)

end Protodot
